import Mathlib

/-!
# Verification of the SecureDNA DOPRF core against its specification

This file gives a shallow embedding, in Lean 4, of the cryptographic core of
the SecureDNA repository (crate `doprf`, the `incorporate` crate, the zkVM
guest programs, and the HDB screening endpoint) and proves or refutes the
claims of the specification against it.

Modelling conventions, used throughout:

* The Ristretto group is a cyclic group of prime order ℓ and its scalar type
  is the field ℤ/ℓ.  Scalar multiplication `s · P` corresponds, through the
  isomorphism `x·G ↦ x`, to field multiplication.  The protocol layer is
  therefore embedded over an arbitrary field `F`: scalars and points are both
  elements of `F`, point addition is `+`, scalar-by-point multiplication is
  `*`, the group identity is `0`, and `Scalar::invert` is the field inverse
  (`Scalar::invert` computes `x^(ℓ-2) mod ℓ`, which is the field inverse of
  `ℤ/ℓ`).  Theorems quantify over `F`; the Rust code instantiates `F` with
  `ℤ/ℓ` for the Curve25519 Ristretto order ℓ, which is prime.

* The byte-level Ristretto codec (`curve25519-dalek`, an external collaborator
  of the core per §1/§4.1 of the spec) is modelled as an injective 32-byte
  little-endian encoding whose canonical encodings are exactly the buffers
  whose value is below the group order; decoding is fallible exactly on the
  non-canonical buffers.  The wrapper logic of `impls_for_ristretto_point`
  (length check, decompression check, error mapping) is translated from the
  source.

* Randomness (`OsRng` draws of blinding and verification factors) is made
  explicit: each embedded function takes the scalars that the source draws
  from its RNG as additional arguments.

* `active_security.rs`, `lagrange.rs`, `party.rs` and `tagged.rs` are
  referenced by the sources under verification but are not part of the source
  tree; the entities they define are modelled from the spec where needed and
  are marked `Modelled from the spec:` in their doc comments.
-/

/-- A byte. -/
abbrev Byte := Fin 256

/-- The order ℓ of the Ristretto group over Curve25519:
ℓ = 2^252 + 27742317777372353535851937790883648493 (a prime). -/
def RISTRETTO_GROUP_ORDER : Nat :=
  7237005577332262213973186563042994240857116359379907606001950938285454250989

/-- Little-endian value of a byte string (the value a 32-byte buffer encodes). -/
def bytesToNat : List Byte → Nat
  | [] => 0
  | b :: bs => b.val + 256 * bytesToNat bs

/-- `DecodeError` from `doprf/src/prf.rs` (the `HexError` payload, a hex
library error, is dropped: no claim depends on it). -/
inductive DecodeError where
  | hexError
  | invalidRistrettoPoint
  | invalidScalar
deriving DecidableEq, Repr

/-- A canonical 32-byte Ristretto point encoding: 32 bytes whose little-endian
value is below the group order.  Modelled from the spec: §4.1 "decode/encode
point (canonical only)", §3 "decode rejects invalid encodings". -/
def canonicalPointEncoding (bytes : List Byte) : Prop :=
  bytes.length = 32 ∧ bytesToNat bytes < RISTRETTO_GROUP_ORDER

instance (bytes : List Byte) : Decidable (canonicalPointEncoding bytes) :=
  inferInstanceAs (Decidable (_ ∧ _))

/-- `Query` of `doprf/src/prf.rs` at the byte level: a stored compressed
Ristretto encoding.  Every value of the Rust type reachable through its public
constructors (`from_rp`, `try_from_buf`) stores a canonical encoding, which the
invariant fields record. -/
structure Query where
  bytes : List Byte
  len32 : bytes.length = 32
  canonical : bytesToNat bytes < RISTRETTO_GROUP_ORDER

/-- `HashPart` of `doprf/src/prf.rs` at the byte level. -/
structure HashPart where
  bytes : List Byte
  len32 : bytes.length = 32
  canonical : bytesToNat bytes < RISTRETTO_GROUP_ORDER

/-- `CompletedHashValue` of `doprf/src/prf.rs` at the byte level. -/
structure CompletedHashValue where
  bytes : List Byte
  len32 : bytes.length = 32
  canonical : bytesToNat bytes < RISTRETTO_GROUP_ORDER

/-- `Query::as_bytes`. -/
def Query.as_bytes (q : Query) : List Byte := q.bytes

/-- `HashPart.as_bytes`. -/
def HashPart.as_bytes (q : HashPart) : List Byte := q.bytes

/-- `CompletedHashValue.as_bytes`. -/
def CompletedHashValue.as_bytes (q : CompletedHashValue) : List Byte := q.bytes

/-- `Query::try_from_buf` from `impls_for_ristretto_point!`:
`CompressedRistretto::from_slice` fails unless the buffer has length 32 (error
mapped to `InvalidRistrettoPoint`), then the decompression check fails on a
non-canonical encoding (error `InvalidRistrettoPoint`). -/
def Query.try_from_buf (bytes : List Byte) : Except DecodeError Query :=
  if h : bytes.length = 32 then
    if hc : bytesToNat bytes < RISTRETTO_GROUP_ORDER then
      .ok ⟨bytes, h, hc⟩
    else .error .invalidRistrettoPoint
  else .error .invalidRistrettoPoint

/-- `HashPart::try_from_buf` from `impls_for_ristretto_point!`. -/
def HashPart.try_from_buf (bytes : List Byte) : Except DecodeError HashPart :=
  if h : bytes.length = 32 then
    if hc : bytesToNat bytes < RISTRETTO_GROUP_ORDER then
      .ok ⟨bytes, h, hc⟩
    else .error .invalidRistrettoPoint
  else .error .invalidRistrettoPoint

/-- `CompletedHashValue::try_from_buf` from `impls_for_ristretto_point!`. -/
def CompletedHashValue.try_from_buf (bytes : List Byte) :
    Except DecodeError CompletedHashValue :=
  if h : bytes.length = 32 then
    if hc : bytesToNat bytes < RISTRETTO_GROUP_ORDER then
      .ok ⟨bytes, h, hc⟩
    else .error .invalidRistrettoPoint
  else .error .invalidRistrettoPoint

/-- `HashTag` from `tagged.rs`.  Modelled from the spec: §3 "4 bytes of
metadata attached to a window", preserved opaquely by the state machine;
`HashTag::default()` is the zero tag.  Modelled as a 4-byte (32-bit) value. -/
abbrev HashTag := Fin 4294967296

/-- `TaggedHash` from `tagged.rs`.  Modelled from the spec: §3 "(HashTag,
CompletedHashValue)", the unit emitted to the HDB.  The hash is a group
element of `F` (see the header comment). -/
structure TaggedHash (F : Type) where
  tag : HashTag
  hash : F
deriving DecidableEq, Repr

/-- `QueryError` from `doprf/src/prf.rs`.  Keyserver ids are modelled as
naturals (`KeyserverId` of `party.rs` is an integer in 1..=255 per §3). -/
inductive QueryError where
  | wrongSizeResponse
  | missingKeyserverResponse
  | validationFailed (keyservers : List Nat)
deriving DecidableEq, Repr

section Protocol

variable {F : Type} [Field F] [DecidableEq F]

/-- `QueryState` from `doprf/src/prf.rs`.  Scalars and points are elements of
the field `F` (see the header comment). -/
structure QueryState (F : Type) where
  required_keyholders : Nat
  blinding_factor : F
  verification_factor : F
  query : F
  responses : List (Nat × F)
deriving DecidableEq, Repr

/-- `QueryState::from_rp`.  The blinding factor, drawn from `OsRng` in the
source, is passed explicitly; the query is `point * blinding_factor`. -/
def QueryState.from_rp (point : F) (required_keyholders : Nat)
    (verification_factor blinding_factor : F) : QueryState F :=
  { required_keyholders := required_keyholders
    blinding_factor := blinding_factor
    verification_factor := verification_factor
    query := point * blinding_factor
    responses := [] }

/-- `QueryState::incorporate_response`: appends `(i, p)` (the
`reserve_exact` call in the source only preallocates capacity). -/
def QueryState.incorporate_response (qs : QueryState F) (i : Nat) (p : F) :
    QueryState F :=
  { qs with responses := qs.responses ++ [(i, p)] }

/-- `QueryState::has_hash`: enough responses to reconstruct the hash. -/
def QueryState.has_hash (qs : QueryState F) : Bool :=
  decide (qs.required_keyholders ≤ qs.responses.length)

/-- `QueryState::calculate_hash_value`: `blinding_factor.invert()` times the
sum of the incorporated hash parts, or `None` below the threshold.
(`Scalar::invert` is the field inverse of ℤ/ℓ, see the header comment.) -/
def QueryState.calculate_hash_value (qs : QueryState F) : Option F :=
  if qs.has_hash then
    some (qs.blinding_factor⁻¹ * (qs.responses.map Prod.snd).sum)
  else none

/-- `QueryState::get_hash_value_and_verification_value`.  The verifier point
is `vartime_double_scalar_mul_basepoint(v, result, 0) = v·result + 0·B`,
i.e. `verification_factor * result`. -/
def QueryState.get_hash_value_and_verification_value (qs : QueryState F) :
    Option (F × F) :=
  qs.calculate_hash_value.map fun result =>
    (result, qs.verification_factor * result)

/-- Modelled from the spec: `RandomizedTarget` (`active_security.rs` is not
under src/).  §4.4 specifies T_ρ abstractly through exactly three operations,
with no formulas; it is therefore embedded as a record of those three
operations. -/
structure RandomizedTarget (F : Type) where
  get_checksum_point_for_validation : F → F
  validate_responses : F → Bool
  is_keyserver_response_valid : List Nat → Nat → F → Bool

/-- Modelled from the spec: `ActiveSecurityKey` (`active_security.rs` is not
under src/).  §4.4: from the batch's random modifier ρ it derives the
randomized target T_ρ. -/
structure ActiveSecurityKey (F : Type) where
  randomized_target : F → RandomizedTarget F

/-- `QueryStateSet` from `doprf/src/prf.rs`: the ordered batch of
(optional tag, query state) pairs plus the randomized target. -/
structure QueryStateSet (F : Type) where
  querystates : List (Option HashTag × QueryState F)
  randomized_target : RandomizedTarget F

/-- `QueryStateSet::len`. -/
def QueryStateSet.len (qss : QueryStateSet F) : Nat :=
  qss.querystates.length

/-- `QueryStateSet::queries`. -/
def QueryStateSet.queries (qss : QueryStateSet F) : List F :=
  qss.querystates.map fun tqs => tqs.2.query

/-- `QueryStateSet::all_have_hash`. -/
def QueryStateSet.all_have_hash (qss : QueryStateSet F) : Bool :=
  qss.querystates.all fun tqs => tqs.2.has_hash

/-- `QueryStateSet::incorporate_response`.  The source mutates `self` and
returns `Result<(), QueryError>`; the embedding returns the result together
with the post-state (unchanged on the error path, which returns before the
loop). -/
def QueryStateSet.incorporate_response (qss : QueryStateSet F) (id : Nat)
    (parts : List F) : Except QueryError Unit × QueryStateSet F :=
  if parts.length ≠ qss.len then (.error .wrongSizeResponse, qss)
  else
    (.ok (),
      { qss with
        querystates := qss.querystates.zipWith
          (fun tqs p => (tqs.1, tqs.2.incorporate_response id p)) parts })

/-- Sorted insert-or-accumulate on a key-ordered association list: the
functional model of the source's
`individual_sums.entry(id).or_insert(identity); *sum += hash * modification`
on a `BTreeMap<KeyserverId, RistrettoPoint>`. -/
def insertAdd (m : List (Nat × F)) (id : Nat) (p : F) : List (Nat × F) :=
  match m with
  | [] => [(id, p)]
  | (k, v) :: rest =>
    if id < k then (id, p) :: (k, v) :: rest
    else if id = k then (k, v + p) :: rest
    else (k, v) :: insertAdd rest id p

/-- The `individual_sums` map built by
`QueryStateSet::find_keyservers_with_invalid_contribution`: for every state
and every response `(id, hash)` of that state, accumulate
`hash * (blinding_factor⁻¹ * verification_factor)` into the entry of `id`. -/
def QueryStateSet.individual_sums (qss : QueryStateSet F) : List (Nat × F) :=
  qss.querystates.foldl
    (fun m tqs =>
      tqs.2.responses.foldl
        (fun m r =>
          insertAdd m r.1
            (r.2 * (tqs.2.blinding_factor⁻¹ * tqs.2.verification_factor)))
        m)
    []

/-- `QueryStateSet::find_keyservers_with_invalid_contribution`:
`KeyserverIdSet::from_iter(individual_sums.keys())` is the ascending key
list; each entry is checked with `is_keyserver_response_valid` and the ids of
the failing entries are returned (in ascending order). -/
def QueryStateSet.find_keyservers_with_invalid_contribution
    (qss : QueryStateSet F) : List Nat :=
  let m := qss.individual_sums
  let keyservers := m.map Prod.fst
  (m.filter fun e =>
    ! qss.randomized_target.is_keyserver_response_valid keyservers e.1 e.2).map
    Prod.fst

/-- `QueryStateSet::get_hash_values`.  The source folds the mapped pairs into
(pushed hash list, verifier sum starting from the identity); the `expect` on
`get_hash_value_and_verification_value` is unreachable because the branch is
guarded by `all_have_hash` (embedded as `getD (0, 0)`). -/
def QueryStateSet.get_hash_values (qss : QueryStateSet F) :
    Except QueryError (List (TaggedHash F)) :=
  if ! qss.all_have_hash then .error .missingKeyserverResponse
  else
    let mapped := qss.querystates.map fun tqs =>
      let hv := tqs.2.get_hash_value_and_verification_value.getD (0, 0)
      (TaggedHash.mk (tqs.1.getD 0) hv.1, hv.2)
    let verifier := (mapped.map Prod.snd).sum
    if qss.randomized_target.validate_responses verifier then
      .ok (mapped.map Prod.fst).dropLast
    else
      .error (.validationFailed qss.find_keyservers_with_invalid_contribution)

/-- `QueryStateSet::from_iter` (the pure state construction; the SP1 proving
side effects — stdin writes, `ProverClient` calls, debug prints — do not
touch the constructed set).  `hashPointFromBytes` is
`RistrettoPoint::hash_from_bytes::<Sha3_512>`, `hashScalarFromBytes` is
`Scalar::hash_from_bytes::<Sha3_512>`, `encodePoint` is the compressed
32-byte encoding; the per-window randomness `(blinding, verification)` and
the checksum randomness `r0, v0` are passed explicitly.  The per-window sum
uses `vartime_double_scalar_mul_basepoint(v, point, 0) = v·point`.
`from_iter_step` is the named body of the source's `for (tag, b) in iter`
loop, accumulating (query states, verifier sum, concatenated query bytes). -/
def from_iter_step (hashPointFromBytes : List Byte → F)
    (encodePoint : F → List Byte) (required_keyholders : Nat)
    (acc : List (Option HashTag × QueryState F) × F × List Byte)
    (wr : (HashTag × List Byte) × F × F) :
    List (Option HashTag × QueryState F) × F × List Byte :=
  let point := hashPointFromBytes wr.1.2
  let verification_factor := wr.2.2
  let state := QueryState.from_rp point required_keyholders
    verification_factor wr.2.1
  (acc.1 ++ [(some wr.1.1, state)],
    acc.2.1 + verification_factor * point,
    acc.2.2 ++ encodePoint state.query)

def QueryStateSet.from_iter (hashPointFromBytes : List Byte → F)
    (hashScalarFromBytes : List Byte → F) (encodePoint : F → List Byte)
    (iter : List (HashTag × List Byte)) (required_keyholders : Nat)
    (active_security_key : ActiveSecurityKey F) (rands : List (F × F))
    (r0 v0 : F) : QueryStateSet F :=
  let acc := (iter.zip rands).foldl
    (from_iter_step hashPointFromBytes encodePoint required_keyholders)
    ([], 0, [])
  let rho := hashScalarFromBytes acc.2.2
  let randomized_target := active_security_key.randomized_target rho
  let checksum := randomized_target.get_checksum_point_for_validation acc.2.1
  let x0 := checksum * v0⁻¹
  let checksum_state := QueryState.from_rp x0 required_keyholders v0 r0
  { querystates := acc.1 ++ [(none, checksum_state)]
    randomized_target := randomized_target }

/-- `SerializableQueryState` from `doprf/src/prf.rs`.  Its `[u8; 32]` fields
are modelled by the scalars and points they encode: `Scalar::to_bytes` /
`Scalar::from_bytes_mod_order` are mutually inverse on canonical encodings,
and the response bytes are copied verbatim in both directions. -/
structure SerializableQueryState (F : Type) where
  required_keyholders : Nat
  blinding_factor : F
  verification_factor : F
  query : F
  responses : List (Nat × F)
deriving DecidableEq, Repr

/-- `QueryState::to_serializable`. -/
def QueryState.to_serializable (qs : QueryState F) : SerializableQueryState F :=
  { required_keyholders := qs.required_keyholders
    blinding_factor := qs.blinding_factor
    verification_factor := qs.verification_factor
    query := qs.query
    responses := qs.responses }

/-- `SerializableQueryStateSet` from `doprf/src/prf.rs`: the tag field is a
plain 4-byte array (`[u8; 4]`), not an `Option`. -/
structure SerializableQueryStateSet (F : Type) where
  querystates : List (HashTag × SerializableQueryState F)
  randomized_target : RandomizedTarget F

/-- `QueryStateSet::to_serializable_set`: each tag is
`tag.unwrap_or_default().as_bytes()`. -/
def QueryStateSet.to_serializable_set (qss : QueryStateSet F) :
    SerializableQueryStateSet F :=
  { querystates := qss.querystates.map fun tqs =>
      (tqs.1.getD 0, tqs.2.to_serializable)
    randomized_target := qss.randomized_target }

/-- `SerializableQueryStateSet::to_query_state_set`: every tag comes back as
`Some(HashTag::from_bytes(tag))`; scalars are rebuilt with
`Scalar::from_bytes_mod_order` and responses with
`CompressedRistretto::from_slice` (byte-level identities, see
`SerializableQueryState`). -/
def SerializableQueryStateSet.to_query_state_set
    (s : SerializableQueryStateSet F) : QueryStateSet F :=
  { querystates := s.querystates.map fun tqs =>
      (some tqs.1,
        { required_keyholders := tqs.2.required_keyholders
          blinding_factor := tqs.2.blinding_factor
          verification_factor := tqs.2.verification_factor
          query := tqs.2.query
          responses := tqs.2.responses })
    randomized_target := s.randomized_target }

/-- `KeyShare::apply`: `q.to_rp() * self.0`. -/
def KeyShare.apply (s : F) (q : F) : F := q * s

/-- `KeyShare::apply_query_and_lagrange_coefficient`: `c * self.0 * q`. -/
def KeyShare.apply_query_and_lagrange_coefficient (s : F) (q : F) (c : F) : F :=
  c * s * q

/-- Modelled from the spec: `evaluate_lagrange_polynomial` (`lagrange.rs` is
not under src/).  §4.2: the `k` control points `(s, c₁, …, c_{k-1})` are the
values of the degree-(k−1) polynomial `f` at the canonical nodes
x = 0, 1, …, k−1 with `f(0) = s`; the function evaluates `f` at `x` in
Lagrange form over the scalar field. -/
def evaluate_lagrange_polynomial (control_points : List F) (x : F) : F :=
  ∑ i ∈ Finset.range control_points.length,
    control_points.getD i 0 *
      ∏ j ∈ (Finset.range control_points.length).erase i,
        (x - (j : F)) / ((i : F) - (j : F))

/-- Modelled from the spec: `KeyserverIdSet::langrange_coefficient_for_id`
(`party.rs` is not under src/).  §4.2: for a quorum Q and i ∈ Q,
λ_i = Π_{j∈Q, j≠i} j/(j−i) over the scalar field. -/
def langrange_coefficient_for_id (ids : List Nat) (i : Nat) : F :=
  ∏ j ∈ ids.toFinset.erase i, (j : F) / ((j : F) - (i : F))

/-- `UnreachableQuorumError` from `doprf/src/prf.rs`. -/
structure UnreachableQuorumError where
  required_keyholders : Nat
  num_keyholders : Nat
deriving DecidableEq, Repr

/-- `generate_keyshares` from `doprf/src/prf.rs`.  The `required_keyholders-1`
random scalars drawn from the RNG are passed as `randoms`; the share for
x ∈ 1..=num is the cached control point at index x when x < k, and
`evaluate_lagrange_polynomial(control_points, x)` otherwise. -/
def generate_keyshares (secret_key : F) (randoms : List F)
    (required_keyholders num_keyholders : Nat) :
    Except UnreachableQuorumError (List F) :=
  if num_keyholders < required_keyholders then
    .error ⟨required_keyholders, num_keyholders⟩
  else
    let control_points := secret_key :: randoms.take (required_keyholders - 1)
    .ok ((List.range' 1 num_keyholders).map fun (x : Nat) =>
      match control_points[x]? with
      | some cached => cached
      | none => evaluate_lagrange_polynomial control_points (x : F))

end Protocol

section Incorporate

variable {F : Type} [Field F] [DecidableEq F]

/-- Decoding of one keyserver's packed hash parts
(`ks_pr.iter_decoded().collect::<Result<Vec<HashPart>, _>>()`).  Each packed
chunk is modelled by its decode outcome (`none` for an invalid encoding);
`collect` fails as soon as one chunk fails. -/
def decodeAll : List (Option F) → Option (List F)
  | [] => some []
  | none :: _ => none
  | some p :: rest => (decodeAll rest).map (p :: ·)

/-- The error outcome of the host-side `incorporate_responses_and_hash`
(`crates/incorporate/src/incorporate.rs`): decode failures and
`incorporate_response` failures are returned as errors (via `?`), while a
`get_hash_values` failure aborts through
`.expect("error processing keyserver responses")` (`hashPanic`). -/
inductive IncorporateError where
  | decodeError
  | queryError (e : QueryError)
  | hashPanic (e : QueryError)
deriving DecidableEq, Repr

/-- The response-incorporation loop of `incorporate_responses_and_hash`: for
each `(id, packed parts)` in order, decode the parts and call
`QueryStateSet::incorporate_response`, propagating errors with `?`. -/
def host_incorporate_loop :
    QueryStateSet F → List (Nat × List (Option F)) →
      Except IncorporateError (QueryStateSet F)
  | qss, [] => .ok qss
  | qss, (id, pr) :: rest =>
    match decodeAll pr with
    | none => .error .decodeError
    | some parts =>
      match qss.incorporate_response id parts with
      | (.error e, _) => .error (.queryError e)
      | (.ok _, qss') => host_incorporate_loop qss' rest

/-- `incorporate_responses_and_hash` (`crates/incorporate/src/incorporate.rs`):
incorporate every keyserver response into the query state set, then compute
the tagged hashes with `get_hash_values` (the `spawn_blocking` offloads and
progress reports are scheduling glue with no effect on the value). -/
def incorporate_responses_and_hash (qss : QueryStateSet F)
    (keyserver_responses : List (Nat × List (Option F))) :
    Except IncorporateError (List (TaggedHash F)) :=
  match host_incorporate_loop qss keyserver_responses with
  | .error e => .error e
  | .ok qss' =>
    match qss'.get_hash_values with
    | .error e => .error (.hashPanic e)
    | .ok hs => .ok hs

/-- The replay loop of the verification-proof guest
(`verification_proof/program/src/main.rs`): the same decode and
`incorporate_response` steps, but any error makes the guest print and return
early, committing nothing (`none`). -/
def guest_incorporate_loop :
    QueryStateSet F → List (Nat × List (Option F)) → Option (QueryStateSet F)
  | qss, [] => some qss
  | qss, (id, pr) :: rest =>
    match decodeAll pr with
    | none => none
    | some parts =>
      match qss.incorporate_response id parts with
      | (.error _, _) => none
      | (.ok _, qss') => guest_incorporate_loop qss' rest

/-- The packed `TaggedHash` list committed by the verification-proof guest's
`main` after the recursive sub-proof checks: it deserializes the
`SerializableQueryStateSet`, replays the incorporation loop, calls
`get_hash_values`, and commits `hash_values.into_iter().collect()`; on any
error it returns without committing (`none`). -/
def verification_guest_committed (s : SerializableQueryStateSet F)
    (keyserver_responses : List (Nat × List (Option F))) :
    Option (List (TaggedHash F)) :=
  match guest_incorporate_loop s.to_query_state_set keyserver_responses with
  | none => none
  | some qss' =>
    match qss'.get_hash_values with
    | .error _ => none
    | .ok hs => some hs

end Incorporate

/-- `VerificationInput` from `doprf/src/prf.rs`: an SP1 proof and a verifying
key, opaque to the screening endpoint; both blobs are modelled as naturals. -/
structure VerificationInputM where
  proof : Nat
  vk : Nat
deriving DecidableEq, Repr

/-- The body of a screen-and-verify request
(`RequestWithVerification` in `hdbserver/src/screening.rs`): the packed
tagged-hash payload (opaque here) and the client-supplied verification
input. -/
structure RequestWithVerification where
  ristretto_data : List Nat
  verification : VerificationInputM
deriving DecidableEq, Repr

/-- The outcome of the screen-and-verify endpoint, restricted to the steps C6
is about: `rejected` is an SCEP error response (an opaque error), `panicked`
is a Rust panic aborting the handler, `screened lookups` records that the
hazard index was queried for each listed record. -/
inductive ScreenOutcome where
  | rejected
  | panicked
  | screened (lookups : List Nat)
deriving DecidableEq, Repr

/-- `scep_endpoint_screen_and_verify` (`hdbserver/src/screening.rs`), reduced
to the steps that decide C6 (content-type, session-cookie and body
deserialization precede these steps and are orthogonal to the claim).
`verifies proof vk` abstracts `ProverClient::verify`.  The source
destructures the request's own `VerificationInput { proof, vk }` and runs
`client.verify(&proof, &vk).expect("verification failed")` — a panic on
failure — and otherwise proceeds to `hdb::query_hdb` for every record of the
payload.  The pinned verification-proof verifying key `pinned_vk` is never
consulted by the source. -/
def scep_endpoint_screen_and_verify (verifies : Nat → Nat → Bool)
    (pinned_vk : Nat) (req : RequestWithVerification) : ScreenOutcome :=
  if verifies req.verification.proof req.verification.vk then
    .screened req.ristretto_data
  else .panicked

/-! ### Concrete fixtures used by the witness theorems

The witnesses instantiate the generic field `F` with `ℤ/3` (the protocol
instantiates it with `ℤ/ℓ`; every theorem is uniform in the field). -/

/-- A randomized target whose validation always succeeds. -/
def trivialTarget : RandomizedTarget (ZMod 3) :=
  ⟨fun s => s, fun _ => true, fun _ _ _ => true⟩

/-- A randomized target whose validation always fails. -/
def failTarget : RandomizedTarget (ZMod 3) :=
  ⟨fun s => s, fun _ => false, fun _ _ _ => false⟩

/-- An active-security key returning the always-valid target. -/
def trivialAsk : ActiveSecurityKey (ZMod 3) := ⟨fun _ => trivialTarget⟩

/-- A query state with no responses (threshold 1). -/
def qsEmpty : QueryState (ZMod 3) := ⟨1, 1, 1, 1, []⟩

/-- A query state holding one response (threshold 1). -/
def qsOne : QueryState (ZMod 3) := ⟨1, 1, 1, 1, [(1, 1)]⟩

/-- A one-element set whose only tag is `None`. -/
def qssNone : QueryStateSet (ZMod 3) := ⟨[(none, qsEmpty)], trivialTarget⟩

/-- A complete two-element set under the always-valid target. -/
def qssOk : QueryStateSet (ZMod 3) := ⟨[(some 5, qsOne), (none, qsOne)], trivialTarget⟩

/-- A complete one-element set under the always-failing target. -/
def qssBad : QueryStateSet (ZMod 3) := ⟨[(some 5, qsOne)], failTarget⟩

/-- A serializable set with one state and no responses. -/
def sqssW : SerializableQueryStateSet (ZMod 3) :=
  ⟨[(0, ⟨1, 1, 1, 1, []⟩)], trivialTarget⟩


section BlameDefs

variable {F : Type} [Field F] [DecidableEq F]

/-- The accumulated value stored under key `j` in an association list: the
sum of the values of the entries with key `j` (key-sorted maps built by
`insertAdd` hold at most one entry per key). -/
def lookupSum (m : List (Nat × F)) (j : Nat) : F :=
  ((m.filter fun e => e.1 = j).map Prod.snd).sum

/-- Strictly ascending keys: the ordering invariant of the
`BTreeMap<KeyserverId, RistrettoPoint>` model. -/
def SortedKeys (m : List (Nat × F)) : Prop :=
  List.Sorted (· < ·) (m.map Prod.fst)

end BlameDefs

/-! ## Theorems -/

/-- C9: for every value `x` of the point types `Query`, `HashPart` and
`CompletedHashValue`, decoding its 32-byte encoding succeeds and returns `x`,
and decoding any 32-byte buffer that is not a canonical Ristretto point
encoding fails with `DecodeError::InvalidRistrettoPoint`. -/
theorem ristretto_point_roundtrip_spec :
    (∀ q : Query, Query.try_from_buf q.as_bytes = .ok q) ∧
    (∀ q : HashPart, HashPart.try_from_buf q.as_bytes = .ok q) ∧
    (∀ q : CompletedHashValue, CompletedHashValue.try_from_buf q.as_bytes = .ok q) ∧
    (∀ bytes : List Byte, bytes.length = 32 → ¬ canonicalPointEncoding bytes →
      Query.try_from_buf bytes = .error .invalidRistrettoPoint ∧
      HashPart.try_from_buf bytes = .error .invalidRistrettoPoint ∧
      CompletedHashValue.try_from_buf bytes = .error .invalidRistrettoPoint) := by
  refine ⟨fun q => ?_, fun q => ?_, fun q => ?_, fun bytes hlen hnc => ?_⟩
  · simp [Query.try_from_buf, Query.as_bytes, q.len32, q.canonical]
  · simp [HashPart.try_from_buf, HashPart.as_bytes, q.len32, q.canonical]
  · simp [CompletedHashValue.try_from_buf, CompletedHashValue.as_bytes, q.len32, q.canonical]
  · have hval : ¬ bytesToNat bytes < RISTRETTO_GROUP_ORDER := fun hv => hnc ⟨hlen, hv⟩
    refine ⟨?_, ?_, ?_⟩
    · simp [Query.try_from_buf, hlen, hval]
    · simp [HashPart.try_from_buf, hlen, hval]
    · simp [CompletedHashValue.try_from_buf, hlen, hval]

/-- Witness for C9: a concrete 32-byte buffer of `0xff` bytes is not canonical
and is rejected with `InvalidRistrettoPoint`. -/
theorem ristretto_point_roundtrip_spec_witness :
    (List.replicate 32 (255 : Byte)).length = 32 ∧
    ¬ canonicalPointEncoding (List.replicate 32 (255 : Byte)) ∧
    Query.try_from_buf (List.replicate 32 (255 : Byte)) = .error .invalidRistrettoPoint := by
  refine ⟨by decide, by decide, ?_⟩
  exact (ristretto_point_roundtrip_spec.2.2.2 (List.replicate 32 (255 : Byte))
    (by decide) (by decide)).1

/-- C10: converting a `QueryStateSet` with `to_serializable_set` and back with
`to_query_state_set` preserves each state (threshold, blinding factor,
verification factor, query, responses) but wraps every tag in `Some`, turning
the checksum state's `None` tag into `Some(HashTag::default())`; the round
trip is therefore not the identity on the tag component. -/
theorem serializable_roundtrip_spec {F : Type} [Field F] [DecidableEq F]
    (qss : QueryStateSet F) :
    qss.to_serializable_set.to_query_state_set.querystates
        = qss.querystates.map (fun tqs => (some (tqs.1.getD 0), tqs.2)) ∧
    qss.to_serializable_set.to_query_state_set.randomized_target
        = qss.randomized_target ∧
    ((∃ tqs ∈ qss.querystates, tqs.1 = none) →
      qss.to_serializable_set.to_query_state_set.querystates
        ≠ qss.querystates) := by
  have hmap : qss.to_serializable_set.to_query_state_set.querystates
      = qss.querystates.map (fun tqs => (some (tqs.1.getD 0), tqs.2)) := by
    simp only [QueryStateSet.to_serializable_set,
      SerializableQueryStateSet.to_query_state_set, QueryState.to_serializable,
      List.map_map]
    rfl
  refine ⟨hmap, rfl, fun hx heq => ?_⟩
  obtain ⟨tqs, hmem, htag⟩ := hx
  rw [hmap] at heq
  obtain ⟨i, hi, hget⟩ := List.mem_iff_getElem.mp hmem
  have hi2 : i < (qss.querystates.map
      (fun tqs => ((some (tqs.1.getD 0) : Option HashTag), tqs.2))).length := by
    simpa using hi
  have h2 : (qss.querystates.map
      (fun tqs => ((some (tqs.1.getD 0) : Option HashTag), tqs.2)))[i]
        = qss.querystates[i] := by
    simp only [heq]
  rw [List.getElem_map] at h2
  have h3 := congrArg Prod.fst h2
  simp only at h3
  rw [hget, htag] at h3
  exact Option.some_ne_none _ h3

/-- Witness for C10: on a concrete one-element set whose only tag is `None`,
the round trip yields `Some 0` (the default tag) and is not the identity. -/
theorem serializable_roundtrip_spec_witness :
    qssNone.to_serializable_set.to_query_state_set.querystates
        = qssNone.querystates.map (fun tqs => (some (tqs.1.getD 0), tqs.2)) ∧
    qssNone.to_serializable_set.to_query_state_set.querystates
        ≠ qssNone.querystates :=
  ⟨(serializable_roundtrip_spec qssNone).1,
    (serializable_roundtrip_spec qssNone).2.2
      ⟨(none, qsEmpty), by simp [qssNone], rfl⟩⟩

/-- C4: `QueryStateSet::incorporate_response(id, parts)` fails with
`WrongSizeResponse` exactly when `parts.len()` differs from the number of
query states, leaving every state untouched in that case; on matching lengths
it succeeds and appends exactly one `(id, part)` response to each query
state, the i-th part to the i-th state. -/
theorem incorporate_response_spec {F : Type} [Field F] [DecidableEq F]
    (qss : QueryStateSet F) (id : Nat) (parts : List F) :
    ((qss.incorporate_response id parts).1 = .error .wrongSizeResponse
        ↔ parts.length ≠ qss.len) ∧
    (parts.length ≠ qss.len → (qss.incorporate_response id parts).2 = qss) ∧
    (∀ qs : QueryState F, ∀ p : F,
      (qs.incorporate_response id p).responses = qs.responses ++ [(id, p)]) ∧
    (parts.length = qss.len →
      (qss.incorporate_response id parts).1 = .ok () ∧
      ∀ i, ∀ hi : i < qss.querystates.length, ∀ hp : i < parts.length,
        (qss.incorporate_response id parts).2.querystates[i]? =
          some ((qss.querystates[i]).1,
            (qss.querystates[i]).2.incorporate_response id parts[i])) := by
  refine ⟨?_, ?_, fun qs p => rfl, fun heq => ⟨?_, fun i hi hp => ?_⟩⟩
  · by_cases h : parts.length = qss.len <;>
      simp [QueryStateSet.incorporate_response, h]
  · intro h
    simp [QueryStateSet.incorporate_response, h]
  · simp [QueryStateSet.incorporate_response, heq]
  · simp [QueryStateSet.incorporate_response, heq, List.getElem?_zipWith',
      List.getElem?_eq_getElem hi, List.getElem?_eq_getElem hp]

/-- Witness for C4: on a concrete one-element set, an empty response list is
rejected with `WrongSizeResponse` and mutates nothing, while a one-element
response list is incorporated into the single state. -/
theorem incorporate_response_spec_witness :
    (qssNone.incorporate_response 1 []).1 = .error .wrongSizeResponse ∧
    (qssNone.incorporate_response 1 []).2 = qssNone ∧
    (qssNone.incorporate_response 1 [2]).1 = .ok () ∧
    (qssNone.incorporate_response 1 [2]).2.querystates[0]? =
      some ((qssNone.querystates[0]).1,
        (qssNone.querystates[0]).2.incorporate_response 1 ([(2 : ZMod 3)])[0]) :=
  ⟨(incorporate_response_spec qssNone 1 []).1.mpr (by decide),
    (incorporate_response_spec qssNone 1 []).2.1 (by decide),
    ((incorporate_response_spec qssNone 1 [2]).2.2.2 (by decide)).1,
    ((incorporate_response_spec qssNone 1 [2]).2.2.2 (by decide)).2 0
      (by decide) (by decide)⟩

/-- C2: `QueryStateSet::get_hash_values` fails with
`MissingKeyserverResponse` exactly when some state has fewer than
`required_keyholders` responses; otherwise it reconstructs every state's hash
`r⁻¹·ΣPᵢ` and verifier `v·(r⁻¹·ΣPᵢ)`, sums the verifiers, and — if the
randomized target validates the sum — drops the last element (the synthetic
checksum) and returns the tagged hashes in input order, while on validation
failure it returns `ValidationFailed` with the ids found by blame
attribution. -/
theorem get_hash_values_spec {F : Type} [Field F] [DecidableEq F]
    (qss : QueryStateSet F) :
    (qss.get_hash_values = .error .missingKeyserverResponse ↔
      ∃ tqs ∈ qss.querystates,
        tqs.2.responses.length < tqs.2.required_keyholders) ∧
    ((∀ tqs ∈ qss.querystates,
        tqs.2.required_keyholders ≤ tqs.2.responses.length) →
      (qss.randomized_target.validate_responses
          ((qss.querystates.map fun tqs =>
            tqs.2.verification_factor *
              (tqs.2.blinding_factor⁻¹ *
                (tqs.2.responses.map Prod.snd).sum)).sum) = true →
        qss.get_hash_values = .ok
          ((qss.querystates.map fun tqs =>
            TaggedHash.mk (tqs.1.getD 0)
              (tqs.2.blinding_factor⁻¹ *
                (tqs.2.responses.map Prod.snd).sum)).dropLast)) ∧
      (qss.randomized_target.validate_responses
          ((qss.querystates.map fun tqs =>
            tqs.2.verification_factor *
              (tqs.2.blinding_factor⁻¹ *
                (tqs.2.responses.map Prod.snd).sum)).sum) = false →
        qss.get_hash_values = .error
          (.validationFailed qss.find_keyservers_with_invalid_contribution))) := by
  have hall : qss.all_have_hash = true ↔
      ∀ tqs ∈ qss.querystates,
        tqs.2.required_keyholders ≤ tqs.2.responses.length := by
    simp [QueryStateSet.all_have_hash, List.all_eq_true, QueryState.has_hash]
  constructor
  · constructor
    · intro herr
      by_contra hex
      push_neg at hex
      have hallT : qss.all_have_hash = true :=
        hall.mpr fun tqs hm => hex tqs hm
      simp only [QueryStateSet.get_hash_values, hallT, Bool.not_true,
        Bool.false_eq_true, if_false] at herr
      split at herr <;> simp at herr
    · intro hex
      have hallF : ¬ qss.all_have_hash = true := fun h => by
        obtain ⟨tqs, hm, hlt⟩ := hex
        exact absurd (hall.mp h tqs hm) (not_le.mpr hlt)
      rw [Bool.not_eq_true] at hallF
      simp [QueryStateSet.get_hash_values, hallF]
  · intro hforall
    have hallT : qss.all_have_hash = true := hall.mpr hforall
    have hpair : ∀ tqs ∈ qss.querystates,
        (tqs.2.get_hash_value_and_verification_value).getD (0, 0)
          = (tqs.2.blinding_factor⁻¹ * (tqs.2.responses.map Prod.snd).sum,
             tqs.2.verification_factor *
               (tqs.2.blinding_factor⁻¹ * (tqs.2.responses.map Prod.snd).sum)) := by
      intro tqs hmem
      have hh : tqs.2.has_hash = true := by
        simp [QueryState.has_hash]
        exact hforall tqs hmem
      simp [QueryState.get_hash_value_and_verification_value,
        QueryState.calculate_hash_value, hh]
    have hm : (qss.querystates.map fun tqs =>
        (TaggedHash.mk (tqs.1.getD 0)
          ((tqs.2.get_hash_value_and_verification_value).getD (0, 0)).1,
          ((tqs.2.get_hash_value_and_verification_value).getD (0, 0)).2))
        = qss.querystates.map fun tqs =>
        (TaggedHash.mk (tqs.1.getD 0)
          (tqs.2.blinding_factor⁻¹ * (tqs.2.responses.map Prod.snd).sum),
          tqs.2.verification_factor *
            (tqs.2.blinding_factor⁻¹ * (tqs.2.responses.map Prod.snd).sum)) :=
      List.map_congr_left fun tqs hmem => by rw [hpair tqs hmem]
    have hunfold : qss.get_hash_values =
        if qss.randomized_target.validate_responses
            ((qss.querystates.map fun tqs =>
              tqs.2.verification_factor *
                (tqs.2.blinding_factor⁻¹ *
                  (tqs.2.responses.map Prod.snd).sum)).sum) then
          .ok ((qss.querystates.map fun tqs =>
            TaggedHash.mk (tqs.1.getD 0)
              (tqs.2.blinding_factor⁻¹ *
                (tqs.2.responses.map Prod.snd).sum)).dropLast)
        else
          .error (.validationFailed
            qss.find_keyservers_with_invalid_contribution) := by
      simp only [QueryStateSet.get_hash_values, hallT, Bool.not_true,
        Bool.false_eq_true, if_false, hm, List.map_map]
      rfl
    constructor
    · intro hv
      rw [hunfold, hv]
      simp
    · intro hv
      rw [hunfold, hv]
      simp

/-- Witness for C2: the complete two-element set under the always-valid
target returns its window hashes (the checksum dropped), and the complete set
under the always-failing target returns `ValidationFailed` with the blame
ids; the `MissingKeyserverResponse` characterization holds on the former. -/
theorem get_hash_values_spec_witness :
    (qssOk.get_hash_values = .error .missingKeyserverResponse ↔
      ∃ tqs ∈ qssOk.querystates,
        tqs.2.responses.length < tqs.2.required_keyholders) ∧
    qssOk.get_hash_values = .ok
      ((qssOk.querystates.map fun tqs =>
        TaggedHash.mk (tqs.1.getD 0)
          (tqs.2.blinding_factor⁻¹ *
            (tqs.2.responses.map Prod.snd).sum)).dropLast) ∧
    qssBad.get_hash_values = .error
      (.validationFailed qssBad.find_keyservers_with_invalid_contribution) :=
  ⟨(get_hash_values_spec qssOk).1,
    ((get_hash_values_spec qssOk).2 (by decide)).1 rfl,
    ((get_hash_values_spec qssBad).2 (by decide)).2 rfl⟩

/-- C6 (code evaluation): the screen-and-verify endpoint verifies the proof
against the client-supplied verifying key, not the pinned one: a request
whose proof verifies under its own key proceeds to the hazard lookups even
though it does not verify under the pinned key (here `2`). -/
theorem screen_and_verify_ignores_pinned_vk :
    scep_endpoint_screen_and_verify (fun p k => p == k) 2
        ⟨[7], ⟨1, 1⟩⟩ = .screened [7] ∧
    (fun p k => p == k) 1 2 = false := by
  exact ⟨rfl, rfl⟩

/-- The guest's replay loop and the host's incorporation loop agree: the
guest commits `none` exactly when the host errors, and otherwise they produce
the same post-incorporation state. -/
theorem guest_eq_host_loop {F : Type} [Field F] [DecidableEq F]
    (resps : List (Nat × List (Option F))) :
    ∀ qss : QueryStateSet F,
      guest_incorporate_loop qss resps
        = (host_incorporate_loop qss resps).toOption := by
  induction resps with
  | nil => intro qss; rfl
  | cons hd tl ih =>
    intro qss
    obtain ⟨id, pr⟩ := hd
    cases hdec : decodeAll (F := F) pr with
    | none =>
      simp [guest_incorporate_loop, host_incorporate_loop, hdec,
        Except.toOption]
    | some parts =>
      rcases hinc : qss.incorporate_response id parts with ⟨res, qss'⟩
      cases res with
      | error e =>
        simp [guest_incorporate_loop, host_incorporate_loop, hdec, hinc,
          Except.toOption]
      | ok u =>
        simp [guest_incorporate_loop, host_incorporate_loop, hdec, hinc,
          ih qss']

/-- C7: on the same serialized query state set and the same keyserver
responses, the verification-proof guest's replay commits exactly the packed
`TaggedHash` list that the host-side `incorporate_responses_and_hash`
produces (and commits nothing exactly when the host fails). -/
theorem verification_guest_matches_host {F : Type} [Field F] [DecidableEq F]
    (s : SerializableQueryStateSet F)
    (keyserver_responses : List (Nat × List (Option F))) :
    verification_guest_committed s keyserver_responses
      = (incorporate_responses_and_hash s.to_query_state_set
          keyserver_responses).toOption ∧
    ∀ hs : List (TaggedHash F),
      incorporate_responses_and_hash s.to_query_state_set
          keyserver_responses = .ok hs ↔
        verification_guest_committed s keyserver_responses = some hs := by
  have hmain : verification_guest_committed s keyserver_responses
      = (incorporate_responses_and_hash s.to_query_state_set
          keyserver_responses).toOption := by
    unfold verification_guest_committed incorporate_responses_and_hash
    rw [guest_eq_host_loop]
    cases hl : host_incorporate_loop s.to_query_state_set keyserver_responses with
    | error e => simp [Except.toOption]
    | ok qss' =>
      cases hh : qss'.get_hash_values with
      | error e => simp [Except.toOption, hh]
      | ok hs => simp [Except.toOption, hh]
  refine ⟨hmain, fun hs => ?_⟩
  rw [hmain]
  cases incorporate_responses_and_hash s.to_query_state_set
      keyserver_responses with
  | error e => simp [Except.toOption]
  | ok hs' => simp [Except.toOption]

/-- Witness for C7: the equivalence evaluated at a concrete serialized set
and an empty response list. -/
theorem verification_guest_matches_host_witness :
    verification_guest_committed sqssW []
      = (incorporate_responses_and_hash sqssW.to_query_state_set []).toOption :=
  (verification_guest_matches_host sqssW []).1

/-- Closed form of the `from_iter` window loop: starting from any
accumulator, it appends one tagged query state per window, adds
`v·H(m)` to the verifier sum, and appends the compressed query bytes in
emission order. -/
theorem from_iter_foldl {F : Type} [Field F] [DecidableEq F]
    (hashPointFromBytes : List Byte → F) (encodePoint : F → List Byte)
    (required_keyholders : Nat)
    (l : List ((HashTag × List Byte) × F × F)) :
    ∀ acc : List (Option HashTag × QueryState F) × F × List Byte,
      l.foldl (from_iter_step hashPointFromBytes encodePoint
        required_keyholders) acc
      = (acc.1 ++ l.map (fun wr => (some wr.1.1,
            QueryState.from_rp (hashPointFromBytes wr.1.2) required_keyholders
              wr.2.2 wr.2.1)),
         acc.2.1 + (l.map (fun wr => wr.2.2 * hashPointFromBytes wr.1.2)).sum,
         acc.2.2 ++ (l.map (fun wr =>
            encodePoint (hashPointFromBytes wr.1.2 * wr.2.1))).join) := by
  induction l with
  | nil => intro acc; simp
  | cons hd tl ih =>
    intro acc
    simp [from_iter_step, ih, QueryState.from_rp, List.append_assoc,
      add_assoc]

/-- C3: in `QueryStateSet::from_iter`, the random modifier ρ is
`Scalar::hash_from_bytes` of the concatenation of every window query's
compressed bytes in emission order; the checksum point is
`C = T_ρ.checksum_point_for_validation(S)` with `S = Σ v_m·H(m)`; the
checksum query state is built from `X₀ = C·v₀⁻¹` with verification factor
`v₀` and appended last with tag `None`; an empty input yields a one-element
(checksum-only) set. -/
theorem from_iter_spec {F : Type} [Field F] [DecidableEq F]
    (hashPointFromBytes hashScalarFromBytes : List Byte → F)
    (encodePoint : F → List Byte) (iter : List (HashTag × List Byte))
    (required_keyholders : Nat) (ask : ActiveSecurityKey F)
    (rands : List (F × F)) (r0 v0 : F) :
    (QueryStateSet.from_iter hashPointFromBytes hashScalarFromBytes encodePoint
        iter required_keyholders ask rands r0 v0).randomized_target
      = ask.randomized_target (hashScalarFromBytes
          (((iter.zip rands).map fun wr =>
            encodePoint (hashPointFromBytes wr.1.2 * wr.2.1)).join)) ∧
    (QueryStateSet.from_iter hashPointFromBytes hashScalarFromBytes encodePoint
        iter required_keyholders ask rands r0 v0).querystates
      = ((iter.zip rands).map fun wr => (some wr.1.1,
          QueryState.from_rp (hashPointFromBytes wr.1.2) required_keyholders
            wr.2.2 wr.2.1))
        ++ [(none, QueryState.from_rp
              (RandomizedTarget.get_checksum_point_for_validation
                (ask.randomized_target (hashScalarFromBytes
                  (((iter.zip rands).map fun wr =>
                    encodePoint (hashPointFromBytes wr.1.2 * wr.2.1)).join)))
                (((iter.zip rands).map fun wr =>
                  wr.2.2 * hashPointFromBytes wr.1.2).sum) * v0⁻¹)
              required_keyholders v0 r0)] ∧
    (iter = [] →
      (QueryStateSet.from_iter hashPointFromBytes hashScalarFromBytes
          encodePoint iter required_keyholders ask rands r0 v0).querystates.length
        = 1) := by
  refine ⟨?_, ?_, fun hempty => ?_⟩
  · simp [QueryStateSet.from_iter, from_iter_foldl]
  · simp [QueryStateSet.from_iter, from_iter_foldl]
  · subst hempty
    simp [QueryStateSet.from_iter, from_iter_foldl]

/-- Witness for C3: the empty-batch case on a concrete active-security key
produces exactly one (checksum-only) element. -/
theorem from_iter_spec_witness :
    (QueryStateSet.from_iter (fun _ => 1) (fun _ => 1) (fun _ => [0])
        [] 1 trivialAsk [] 1 1).querystates.length = 1 :=
  (from_iter_spec (fun _ => 1) (fun _ => 1) (fun _ => [0]) [] 1 trivialAsk
    [] 1 1).2.2 rfl

/-- `lookupSum` distributes over `cons`. -/
theorem lookupSum_cons {F : Type} [Field F] [DecidableEq F]
    (a : Nat × F) (t : List (Nat × F)) (j : Nat) :
    lookupSum (a :: t) j = (if a.1 = j then a.2 else 0) + lookupSum t j := by
  by_cases h : a.1 = j <;> simp [lookupSum, List.filter_cons, h]

/-- A key that is absent contributes nothing. -/
theorem lookupSum_eq_zero_of_not_mem {F : Type} [Field F] [DecidableEq F]
    (j : Nat) :
    ∀ m : List (Nat × F), j ∉ m.map Prod.fst → lookupSum m j = 0
  | [], _ => rfl
  | a :: t, h => by
    have h1 : a.1 ≠ j := fun hc => h (by simp [hc])
    have h2 : j ∉ t.map Prod.fst := fun hc => h (by simp [hc])
    simp [lookupSum_cons, h1, lookupSum_eq_zero_of_not_mem j t h2]

/-- `insertAdd` adds exactly the new key to the key set. -/
theorem insertAdd_keys_mem {F : Type} [Field F] [DecidableEq F]
    (id : Nat) (p : F) (j : Nat) :
    ∀ m : List (Nat × F),
      (j ∈ (insertAdd m id p).map Prod.fst ↔ j ∈ m.map Prod.fst ∨ j = id)
  | [] => by simp [insertAdd]
  | (k, v) :: rest => by
    by_cases h1 : id < k
    · simp [insertAdd, h1]
      tauto
    · by_cases h2 : id = k
      · subst h2
        simp [insertAdd, h1]
        tauto
      · simp [insertAdd, h1, h2, insertAdd_keys_mem id p j rest]
        tauto

/-- `insertAdd` preserves the strict ordering of the keys. -/
theorem insertAdd_sorted {F : Type} [Field F] [DecidableEq F]
    (id : Nat) (p : F) :
    ∀ m : List (Nat × F), SortedKeys m → SortedKeys (insertAdd m id p)
  | [], _ => by simp [insertAdd, SortedKeys]
  | (k, v) :: rest, h => by
    have hh := h
    rw [SortedKeys, List.map_cons, List.sorted_cons] at hh
    obtain ⟨hk, hrest⟩ := hh
    by_cases h1 : id < k
    · simp only [insertAdd, if_pos h1]
      rw [SortedKeys, List.map_cons, List.sorted_cons]
      refine ⟨?_, h⟩
      intro b hb
      rw [List.map_cons, List.mem_cons] at hb
      rcases hb with rfl | hb
      · exact h1
      · exact lt_trans h1 (hk b hb)
    · by_cases h2 : id = k
      · simp only [insertAdd, if_neg h1, if_pos h2]
        rw [SortedKeys, List.map_cons, List.sorted_cons]
        exact ⟨hk, hrest⟩
      · have h3 : k < id := by omega
        simp only [insertAdd, if_neg h1, if_neg h2]
        rw [SortedKeys, List.map_cons, List.sorted_cons]
        refine ⟨?_, insertAdd_sorted id p rest hrest⟩
        intro b hb
        rcases (insertAdd_keys_mem id p b rest).mp hb with hb' | rfl
        · exact hk b hb'
        · exact h3

/-- On a key-sorted map, `insertAdd` adds `p` to the value under `id` and
leaves every other key's value unchanged. -/
theorem lookupSum_insertAdd {F : Type} [Field F] [DecidableEq F]
    (id : Nat) (p : F) (j : Nat) :
    ∀ m : List (Nat × F), SortedKeys m →
      lookupSum (insertAdd m id p) j
        = lookupSum m j + (if j = id then p else 0)
  | [], _ => by
    have hif : (if id = j then p else 0) = (if j = id then p else 0) := by
      by_cases h2 : j = id
      · simp [h2]
      · have h4 : id ≠ j := fun hc => h2 hc.symm
        simp [h2, h4]
    rw [show insertAdd ([] : List (Nat × F)) id p = [(id, p)] from rfl,
      lookupSum_cons, hif]
    simp [lookupSum]
  | (k, v) :: rest, h => by
    have hrest : SortedKeys rest := by
      rw [SortedKeys, List.map_cons, List.sorted_cons] at h
      exact h.2
    have hif : (if id = j then p else 0) = (if j = id then p else 0) := by
      by_cases h2 : j = id
      · simp [h2]
      · have h4 : id ≠ j := fun hc => h2 hc.symm
        simp [h2, h4]
    by_cases h1 : id < k
    · simp only [insertAdd, if_pos h1, lookupSum_cons, hif]
      ring
    · by_cases h2 : id = k
      · subst h2
        rw [show insertAdd ((id, v) :: rest) id p = (id, v + p) :: rest from by
          simp [insertAdd], lookupSum_cons, lookupSum_cons]
        have hif2 : (if id = j then v + p else 0)
            = (if id = j then v else 0) + (if j = id then p else 0) := by
          by_cases h3 : j = id
          · subst h3
            simp
          · have h4 : id ≠ j := fun hc => h3 hc.symm
            simp [h3, h4]
        rw [hif2]
        ring
      · simp only [insertAdd, if_neg h1, if_neg h2, lookupSum_cons,
          lookupSum_insertAdd id p j rest hrest]
        ring

/-- On a key-sorted map every entry's value is the accumulated value of its
key. -/
theorem entry_eq_lookupSum {F : Type} [Field F] [DecidableEq F] :
    ∀ m : List (Nat × F), SortedKeys m → ∀ e ∈ m, e.2 = lookupSum m e.1
  | [], _, e, he => absurd he (List.not_mem_nil e)
  | a :: t, h, e, he => by
    have hh := h
    rw [SortedKeys, List.map_cons, List.sorted_cons] at hh
    obtain ⟨hk, ht⟩ := hh
    rcases List.mem_cons.mp he with rfl | he'
    · have hnm : e.1 ∉ t.map Prod.fst := fun hc =>
        absurd (hk e.1 hc) (lt_irrefl e.1)
      simp [lookupSum_cons, lookupSum_eq_zero_of_not_mem e.1 t hnm]
    · have h1 : a.1 ≠ e.1 := by
        have : a.1 < e.1 := hk e.1 (List.mem_map.mpr ⟨e, he', rfl⟩)
        omega
      rw [lookupSum_cons, if_neg h1, entry_eq_lookupSum t ht e he']
      simp

/-- Multiplying every value by a constant scales the sum. -/
theorem map_mul_sum {F : Type} [Field F] [DecidableEq F] (c : F) :
    ∀ l : List (Nat × F), (l.map fun r => r.2 * c).sum = c * (l.map Prod.snd).sum
  | [] => by simp
  | a :: t => by
    simp [map_mul_sum c t]
    ring

/-- Folding `insertAdd` over an entry stream preserves sortedness. -/
theorem foldl_insertAdd_sorted {F : Type} [Field F] [DecidableEq F] :
    ∀ es : List (Nat × F), ∀ m : List (Nat × F), SortedKeys m →
      SortedKeys (es.foldl (fun m e => insertAdd m e.1 e.2) m)
  | [], _, hm => hm
  | e :: t, m, hm =>
    foldl_insertAdd_sorted t (insertAdd m e.1 e.2) (insertAdd_sorted e.1 e.2 m hm)

/-- Key set of the `insertAdd` fold: the starting keys plus the streamed
keys. -/
theorem foldl_insertAdd_keys {F : Type} [Field F] [DecidableEq F] :
    ∀ es : List (Nat × F), ∀ m : List (Nat × F), ∀ j,
      (j ∈ (es.foldl (fun m e => insertAdd m e.1 e.2) m).map Prod.fst ↔
        j ∈ m.map Prod.fst ∨ ∃ e ∈ es, e.1 = j)
  | [], m, j => by simp
  | e :: t, m, j => by
    rw [List.foldl_cons, foldl_insertAdd_keys t (insertAdd m e.1 e.2) j,
      insertAdd_keys_mem]
    simp only [List.mem_cons]
    constructor
    · rintro ((hm | rfl) | ⟨x, hx, rfl⟩)
      · exact Or.inl hm
      · exact Or.inr ⟨e, Or.inl rfl, rfl⟩
      · exact Or.inr ⟨x, Or.inr hx, rfl⟩
    · rintro (hm | ⟨x, (rfl | hx), rfl⟩)
      · exact Or.inl (Or.inl hm)
      · exact Or.inl (Or.inr rfl)
      · exact Or.inr ⟨x, hx, rfl⟩

/-- Value under `j` after folding `insertAdd` over an entry stream: the
starting value plus the sum of the streamed contributions with key `j`. -/
theorem foldl_insertAdd_lookupSum {F : Type} [Field F] [DecidableEq F] :
    ∀ es : List (Nat × F), ∀ m : List (Nat × F), SortedKeys m → ∀ j,
      lookupSum (es.foldl (fun m e => insertAdd m e.1 e.2) m) j
        = lookupSum m j + ((es.filter fun e => e.1 = j).map Prod.snd).sum
  | [], m, _, j => by simp
  | e :: t, m, hm, j => by
    rw [List.foldl_cons,
      foldl_insertAdd_lookupSum t (insertAdd m e.1 e.2)
        (insertAdd_sorted e.1 e.2 m hm) j,
      lookupSum_insertAdd e.1 e.2 j m hm]
    by_cases h : e.1 = j
    · simp [List.filter_cons, h, eq_comm]
      ring
    · have h2 : ¬ j = e.1 := fun hc => h hc.symm
      simp [List.filter_cons, h, h2]

/-- Contribution of one state's responses with key `j` after pairing each
response with its scaled value. -/
theorem filter_map_contrib {F : Type} [Field F] [DecidableEq F]
    (c : F) (j : Nat) :
    ∀ rs : List (Nat × F),
      (((rs.map fun r => (r.1, r.2 * c)).filter fun e => e.1 = j).map
        Prod.snd).sum
        = c * ((rs.filter fun r => r.1 = j).map Prod.snd).sum
  | [] => by simp
  | r :: t => by
    by_cases h : r.1 = j
    · simp [List.filter_cons, h, filter_map_contrib c j t]
      ring
    · simp [List.filter_cons, h, filter_map_contrib c j t]

/-- Invariant of the double fold that builds `individual_sums`: starting from
a sorted map `m`, the result is sorted, its keys are the starting keys plus
every keyserver id occurring in a response, and the value under `j` grows by
each state's `(r⁻¹·v)`-scaled sum of its responses from `j`. -/
theorem individual_sums_foldl {F : Type} [Field F] [DecidableEq F] :
    ∀ l : List (Option HashTag × QueryState F), ∀ m : List (Nat × F),
      SortedKeys m →
      SortedKeys (l.foldl (fun m tqs => tqs.2.responses.foldl
          (fun m r => insertAdd m r.1
            (r.2 * (tqs.2.blinding_factor⁻¹ * tqs.2.verification_factor))) m)
          m) ∧
      (∀ j, j ∈ (l.foldl (fun m tqs => tqs.2.responses.foldl
          (fun m r => insertAdd m r.1
            (r.2 * (tqs.2.blinding_factor⁻¹ * tqs.2.verification_factor))) m)
          m).map Prod.fst ↔
        j ∈ m.map Prod.fst ∨ ∃ tqs ∈ l, ∃ r ∈ tqs.2.responses, r.1 = j) ∧
      (∀ j, lookupSum (l.foldl (fun m tqs => tqs.2.responses.foldl
          (fun m r => insertAdd m r.1
            (r.2 * (tqs.2.blinding_factor⁻¹ * tqs.2.verification_factor))) m)
          m) j
        = lookupSum m j + (l.map fun tqs =>
            (tqs.2.blinding_factor⁻¹ * tqs.2.verification_factor) *
              ((tqs.2.responses.filter fun r => r.1 = j).map Prod.snd).sum).sum)
  | [], m, hm => ⟨hm, by simp, by simp⟩
  | tqs :: t, m, hm => by
    have hinner : tqs.2.responses.foldl
        (fun m r => insertAdd m r.1
          (r.2 * (tqs.2.blinding_factor⁻¹ * tqs.2.verification_factor))) m
        = (tqs.2.responses.map (fun r => (r.1,
            r.2 * (tqs.2.blinding_factor⁻¹ * tqs.2.verification_factor)))).foldl
          (fun m e => insertAdd m e.1 e.2) m := by
      rw [List.foldl_map]
    have hsorted_inner : SortedKeys (tqs.2.responses.foldl
        (fun m r => insertAdd m r.1
          (r.2 * (tqs.2.blinding_factor⁻¹ * tqs.2.verification_factor))) m) := by
      rw [hinner]
      exact foldl_insertAdd_sorted _ m hm
    obtain ⟨ihs, ihk, ihl⟩ := individual_sums_foldl t _ hsorted_inner
    refine ⟨by rw [List.foldl_cons]; exact ihs, fun j => ?_, fun j => ?_⟩
    · rw [List.foldl_cons]
      rw [ihk j]
      rw [hinner, foldl_insertAdd_keys]
      constructor
      · rintro ((hm' | hex) | hex')
        · exact Or.inl hm'
        · obtain ⟨e, he, rfl⟩ := hex
          obtain ⟨r, hr, rfl⟩ := List.mem_map.mp he
          exact Or.inr ⟨tqs, List.mem_cons_self tqs t, r, hr, rfl⟩
        · obtain ⟨tqs', ht', hr'⟩ := hex'
          exact Or.inr ⟨tqs', List.mem_cons_of_mem tqs ht', hr'⟩
      · rintro (hm' | ⟨tqs', ht', r, hr, rfl⟩)
        · exact Or.inl (Or.inl hm')
        · rcases List.mem_cons.mp ht' with rfl | ht''
          · exact Or.inl (Or.inr ⟨_, List.mem_map.mpr ⟨r, hr, rfl⟩, rfl⟩)
          · exact Or.inr ⟨tqs', ht'', r, hr, rfl⟩
    · rw [List.foldl_cons, ihl j, hinner, foldl_insertAdd_lookupSum _ m hm j]
      simp only [List.map_cons, List.sum_cons]
      rw [filter_map_contrib]
      ring

/-- Once every state has enough responses, `get_hash_values` is the
validation branch on the summed verifiers. -/
theorem get_hash_values_eq_branch {F : Type} [Field F] [DecidableEq F]
    (qss : QueryStateSet F)
    (hforall : ∀ tqs ∈ qss.querystates,
      tqs.2.required_keyholders ≤ tqs.2.responses.length) :
    qss.get_hash_values =
      if qss.randomized_target.validate_responses
          ((qss.querystates.map fun tqs =>
            tqs.2.verification_factor * (tqs.2.blinding_factor⁻¹ *
              (tqs.2.responses.map Prod.snd).sum)).sum) then
        .ok ((qss.querystates.map fun tqs =>
          TaggedHash.mk (tqs.1.getD 0)
            (tqs.2.blinding_factor⁻¹ *
              (tqs.2.responses.map Prod.snd).sum)).dropLast)
      else .error
        (.validationFailed qss.find_keyservers_with_invalid_contribution) := by
  have hallT : qss.all_have_hash = true := by
    simp [QueryStateSet.all_have_hash, List.all_eq_true, QueryState.has_hash]
    exact fun a b hab => hforall (a, b) hab
  have hpair : ∀ tqs ∈ qss.querystates,
      (tqs.2.get_hash_value_and_verification_value).getD (0, 0)
        = (tqs.2.blinding_factor⁻¹ * (tqs.2.responses.map Prod.snd).sum,
           tqs.2.verification_factor *
             (tqs.2.blinding_factor⁻¹ * (tqs.2.responses.map Prod.snd).sum)) := by
    intro tqs hmem
    have hh : tqs.2.has_hash = true := by
      simp [QueryState.has_hash]
      exact hforall tqs hmem
    simp [QueryState.get_hash_value_and_verification_value,
      QueryState.calculate_hash_value, hh]
  have hm : (qss.querystates.map fun tqs =>
      (TaggedHash.mk (tqs.1.getD 0)
        ((tqs.2.get_hash_value_and_verification_value).getD (0, 0)).1,
        ((tqs.2.get_hash_value_and_verification_value).getD (0, 0)).2))
      = qss.querystates.map fun tqs =>
      (TaggedHash.mk (tqs.1.getD 0)
        (tqs.2.blinding_factor⁻¹ * (tqs.2.responses.map Prod.snd).sum),
        tqs.2.verification_factor *
          (tqs.2.blinding_factor⁻¹ * (tqs.2.responses.map Prod.snd).sum)) :=
    List.map_congr_left fun tqs hmem => by rw [hpair tqs hmem]
  simp only [QueryStateSet.get_hash_values, hallT, Bool.not_true,
    Bool.false_eq_true, if_false, hm, List.map_map]
  rfl

/-- C5: blame attribution computes, for each keyserver id occurring in any
state's responses (participating ids, in ascending order), the sum over all
query states of `(r⁻¹·v)·P_id`, asks the randomized target's
`is_keyserver_response_valid` for that id given the participating id set, and
returns exactly the failing ids; it decides the `ValidationFailed` payload of
`get_hash_values`, which is produced only on the validation-failure branch. -/
theorem find_keyservers_with_invalid_contribution_spec {F : Type} [Field F]
    [DecidableEq F] (qss : QueryStateSet F) :
    SortedKeys qss.individual_sums ∧
    (∀ j, j ∈ qss.individual_sums.map Prod.fst ↔
      ∃ tqs ∈ qss.querystates, ∃ r ∈ tqs.2.responses, r.1 = j) ∧
    (∀ j, lookupSum qss.individual_sums j
      = (qss.querystates.map fun tqs =>
          (tqs.2.blinding_factor⁻¹ * tqs.2.verification_factor) *
            ((tqs.2.responses.filter fun r => r.1 = j).map Prod.snd).sum).sum) ∧
    (∀ j, j ∈ qss.find_keyservers_with_invalid_contribution ↔
      (j ∈ qss.individual_sums.map Prod.fst ∧
        qss.randomized_target.is_keyserver_response_valid
          (qss.individual_sums.map Prod.fst) j
          ((qss.querystates.map fun tqs =>
            (tqs.2.blinding_factor⁻¹ * tqs.2.verification_factor) *
              ((tqs.2.responses.filter fun r => r.1 = j).map Prod.snd).sum).sum)
          = false)) ∧
    (∀ ids, qss.get_hash_values = .error (.validationFailed ids) →
      ids = qss.find_keyservers_with_invalid_contribution) ∧
    (qss.all_have_hash = true →
      qss.randomized_target.validate_responses
        ((qss.querystates.map fun tqs =>
          tqs.2.verification_factor * (tqs.2.blinding_factor⁻¹ *
            (tqs.2.responses.map Prod.snd).sum)).sum) = true →
      ∀ ids, qss.get_hash_values ≠ .error (.validationFailed ids)) := by
  obtain ⟨hs, hk, hl⟩ := individual_sums_foldl qss.querystates []
    (by simp [SortedKeys])
  have hs' : SortedKeys qss.individual_sums := hs
  have hk' : ∀ j, j ∈ qss.individual_sums.map Prod.fst ↔
      ∃ tqs ∈ qss.querystates, ∃ r ∈ tqs.2.responses, r.1 = j := by
    intro j
    rw [show qss.individual_sums.map Prod.fst
      = (qss.querystates.foldl (fun m tqs => tqs.2.responses.foldl
          (fun m r => insertAdd m r.1
            (r.2 * (tqs.2.blinding_factor⁻¹ * tqs.2.verification_factor))) m)
          []).map Prod.fst from rfl, hk j]
    simp
  have hval : ∀ j, lookupSum qss.individual_sums j
      = (qss.querystates.map fun tqs =>
          (tqs.2.blinding_factor⁻¹ * tqs.2.verification_factor) *
            ((tqs.2.responses.filter fun r => r.1 = j).map Prod.snd).sum).sum := by
    intro j
    rw [show lookupSum qss.individual_sums j
      = lookupSum (qss.querystates.foldl (fun m tqs => tqs.2.responses.foldl
          (fun m r => insertAdd m r.1
            (r.2 * (tqs.2.blinding_factor⁻¹ * tqs.2.verification_factor))) m)
          []) j from rfl, hl j]
    simp [lookupSum]
  refine ⟨hs', hk', hval, fun j => ?_, fun ids heq => ?_, fun hall hvalid ids heq => ?_⟩
  · constructor
    · intro hj
      simp only [QueryStateSet.find_keyservers_with_invalid_contribution] at hj
      obtain ⟨e, he, rfl⟩ := List.mem_map.mp hj
      obtain ⟨hem, hpe⟩ := List.mem_filter.mp he
      refine ⟨List.mem_map.mpr ⟨e, hem, rfl⟩, ?_⟩
      rw [Bool.not_eq_eq_eq_not, Bool.not_true] at hpe
      rw [← hval e.1, ← entry_eq_lookupSum _ hs' e hem]
      exact hpe
    · rintro ⟨hjk, hvalid⟩
      obtain ⟨e, hem, rfl⟩ := List.mem_map.mp hjk
      simp only [QueryStateSet.find_keyservers_with_invalid_contribution]
      refine List.mem_map.mpr ⟨e, List.mem_filter.mpr ⟨hem, ?_⟩, rfl⟩
      rw [Bool.not_eq_eq_eq_not, Bool.not_true]
      rw [entry_eq_lookupSum _ hs' e hem, hval e.1]
      exact hvalid
  · by_cases hall : qss.all_have_hash = true
    · simp only [QueryStateSet.get_hash_values, hall, Bool.not_true,
        Bool.false_eq_true, if_false] at heq
      split at heq
      · exact absurd heq (by simp)
      · simp only [Except.error.injEq, QueryError.validationFailed.injEq] at heq
        exact heq.symm
    · rw [Bool.not_eq_true] at hall
      simp [QueryStateSet.get_hash_values, hall] at heq
  · have hforall : ∀ tqs ∈ qss.querystates,
        tqs.2.required_keyholders ≤ tqs.2.responses.length := by
      simpa [QueryStateSet.all_have_hash, List.all_eq_true,
        QueryState.has_hash] using hall
    rw [get_hash_values_eq_branch qss hforall, hvalid] at heq
    simp at heq

/-- Witness for C5: applied to the concrete complete sets; the always-valid
case never produces `ValidationFailed`. -/
theorem find_keyservers_with_invalid_contribution_spec_witness :
    SortedKeys qssBad.individual_sums ∧
    (1 ∈ qssBad.individual_sums.map Prod.fst ↔
      ∃ tqs ∈ qssBad.querystates, ∃ r ∈ tqs.2.responses, r.1 = 1) ∧
    (∀ ids, qssOk.get_hash_values ≠ .error (.validationFailed ids)) :=
  ⟨(find_keyservers_with_invalid_contribution_spec qssBad).1,
    (find_keyservers_with_invalid_contribution_spec qssBad).2.1 1,
    (find_keyservers_with_invalid_contribution_spec qssOk).2.2.2.2.2
      (by decide) rfl⟩

/-- The executable Lagrange-form evaluator equals the evaluation of the
Mathlib interpolation polynomial through the control points at the canonical
nodes 0, 1, …, len−1. -/
theorem evaluate_lagrange_polynomial_eq {F : Type} [Field F] [DecidableEq F]
    (cps : List F) (x : F) :
    evaluate_lagrange_polynomial cps x
      = Polynomial.eval x (Lagrange.interpolate (Finset.range cps.length)
          (Nat.cast : ℕ → F) (fun i => cps.getD i 0)) := by
  rw [Lagrange.interpolate_apply, Polynomial.eval_finset_sum,
    evaluate_lagrange_polynomial]
  refine Finset.sum_congr rfl fun i hi => ?_
  rw [Polynomial.eval_mul, Polynomial.eval_C]
  congr 1
  rw [Lagrange.basis, Polynomial.eval_prod]
  refine Finset.prod_congr rfl fun j hj => ?_
  rw [Lagrange.basisDivisor, Polynomial.eval_mul, Polynomial.eval_C,
    Polynomial.eval_sub, Polynomial.eval_X, Polynomial.eval_C]
  rw [div_eq_mul_inv, mul_comm]

/-- Reconstruction at zero: for a polynomial of degree below the quorum size
and a quorum with injectively embedded ids, the λ-weighted sum of its values
at the quorum nodes is its value at 0 (Lagrange interpolation at 0 with
λ_i = Π_{j∈Q, j≠i} j/(j−i)). -/
theorem sum_lagrange_coeff_eval {F : Type} [Field F] [DecidableEq F]
    (quorum : List Nat) (hnodup : quorum.Nodup)
    (hinj : Set.InjOn (Nat.cast : ℕ → F) ↑quorum.toFinset)
    (f : Polynomial F) (hdeg : f.degree < quorum.length) :
    (quorum.map fun i => langrange_coefficient_for_id quorum i
      * Polynomial.eval (i : F) f).sum = Polynomial.eval 0 f := by
  have hcard : quorum.toFinset.card = quorum.length :=
    List.toFinset_card_of_nodup hnodup
  have hf := Lagrange.eq_interpolate (v := (Nat.cast : ℕ → F))
    (s := quorum.toFinset) hinj (by rw [hcard]; exact hdeg)
  rw [← List.sum_toFinset _ hnodup]
  conv_rhs => rw [hf]
  rw [Lagrange.interpolate_apply, Polynomial.eval_finset_sum]
  refine Finset.sum_congr rfl fun i hi => ?_
  rw [Polynomial.eval_mul, Polynomial.eval_C, mul_comm]
  congr 1
  rw [Lagrange.basis, Polynomial.eval_prod, langrange_coefficient_for_id]
  refine Finset.prod_congr rfl fun j hj => ?_
  rw [Lagrange.basisDivisor, Polynomial.eval_mul, Polynomial.eval_C,
    Polynomial.eval_sub, Polynomial.eval_X, Polynomial.eval_C]
  rw [zero_sub, div_eq_mul_inv,
    show ((j : F) - (i : F)) = -((i : F) - (j : F)) from by ring, inv_neg]
  ring

/-- Pulling a constant right factor out of a mapped sum. -/
theorem list_sum_map_mul_right {F : Type} [Field F] [DecidableEq F]
    (g : Nat → F) (a : F) :
    ∀ l : List Nat, (l.map fun i => g i * a).sum = (l.map g).sum * a
  | [] => by simp
  | i :: t => by
    simp [list_sum_map_mul_right g a t]
    ring

/-- Closed form of the ok branch of `generate_keyshares`: the shares are the
values, at x = 1..n, of the interpolation polynomial through the control
points at the nodes 0..k−1 (the cached branch and the
`evaluate_lagrange_polynomial` branch agree on it). -/
theorem generate_keyshares_eval {F : Type} [Field F] [DecidableEq F]
    (secret : F) (randoms : List F) (k n : Nat) (hk : 0 < k) (hkn : k ≤ n)
    (hrand : randoms.length = k - 1)
    (hinj : ∀ a ∈ List.range (n + 1), ∀ b ∈ List.range (n + 1),
      (a : F) = (b : F) → a = b) :
    ∃ shares : List F,
      generate_keyshares secret randoms k n = .ok shares ∧
      shares.length = n ∧
      ∀ x : Nat, 1 ≤ x → x ≤ n →
        shares.getD (x - 1) 0
          = Polynomial.eval (x : F)
            (Lagrange.interpolate
              (Finset.range (secret :: randoms.take (k - 1)).length)
              (Nat.cast : ℕ → F)
              (fun i => (secret :: randoms.take (k - 1)).getD i 0)) := by
  have hnot : ¬ (n < k) := not_lt.mpr hkn
  have hcps : (secret :: randoms.take (k - 1)).length = k := by
    simp [List.length_take, hrand]
    omega
  have hinj' : Set.InjOn (Nat.cast : ℕ → F)
      ↑(Finset.range (secret :: randoms.take (k - 1)).length) := by
    intro a ha b hb hab
    rw [Finset.coe_range, Set.mem_Iio, hcps] at ha hb
    exact hinj a (List.mem_range.mpr (by omega)) b (List.mem_range.mpr (by omega)) hab
  refine ⟨(List.range' 1 n).map fun (x : Nat) =>
      match (secret :: randoms.take (k - 1))[x]? with
      | some cached => cached
      | none => evaluate_lagrange_polynomial (secret :: randoms.take (k - 1))
          (x : F), ?_, by simp, ?_⟩
  · unfold generate_keyshares
    rw [if_neg hnot]
  · intro x hx1 hxn
    have hlt : x - 1 < ((List.range' 1 n).map fun (x : Nat) =>
        match (secret :: randoms.take (k - 1))[x]? with
        | some cached => cached
        | none => evaluate_lagrange_polynomial (secret :: randoms.take (k - 1))
            (x : F)).length := by
      simp
      omega
    rw [List.getD_eq_getElem _ _ hlt, List.getElem_map]
    have hblt : x - 1 < (List.range' 1 n).length := by
      simp
      omega
    have hidx : (List.range' 1 n)[x - 1] = x := by
      simp [List.getElem_range']
      omega
    rw [hidx]
    by_cases hxk : x < (secret :: randoms.take (k - 1)).length
    · rw [List.getElem?_eq_getElem hxk]
      show (secret :: randoms.take (k - 1))[x] = _
      rw [Lagrange.eval_interpolate_at_node _ hinj'
        (Finset.mem_range.mpr hxk)]
      exact (List.getD_eq_getElem _ _ hxk).symm
    · rw [List.getElem?_eq_none (le_of_not_lt hxk)]
      show evaluate_lagrange_polynomial (secret :: randoms.take (k - 1)) (x : F) = _
      exact evaluate_lagrange_polynomial_eq _ _

/-- Any k−1 shares are consistent with an arbitrary alternative secret: there
is a choice of the dealer's random control points for `s'` whose shares agree
with the original polynomial on the given k−1 evaluation points. -/
theorem generate_keyshares_alternative {F : Type} [Field F] [DecidableEq F]
    (secret : F) (randoms : List F) (k n : Nat) (hk : 0 < k) (hkn : k ≤ n)
    (hinj : ∀ a ∈ List.range (n + 1), ∀ b ∈ List.range (n + 1),
      (a : F) = (b : F) → a = b)
    (part : List Nat) (hndp : part.Nodup) (hlenp : part.length = k - 1)
    (hboundsp : ∀ i ∈ part, 1 ≤ i ∧ i ≤ n) (s' : F) :
    ∃ randoms' shares' : List F, randoms'.length = k - 1 ∧
      generate_keyshares s' randoms' k n = .ok shares' ∧
      ∀ i ∈ part, shares'.getD (i - 1) 0
        = Polynomial.eval (i : F)
          (Lagrange.interpolate
            (Finset.range (secret :: randoms.take (k - 1)).length)
            (Nat.cast : ℕ → F)
            (fun i => (secret :: randoms.take (k - 1)).getD i 0)) := by
  set fI := Lagrange.interpolate
    (Finset.range (secret :: randoms.take (k - 1)).length) (Nat.cast : ℕ → F)
    (fun i => (secret :: randoms.take (k - 1)).getD i 0) with hfI
  have h0T : (0 : ℕ) ∉ part.toFinset := by
    intro h0
    have := hboundsp 0 (List.mem_toFinset.mp h0)
    omega
  have hcardT : (insert 0 part.toFinset).card = k := by
    rw [Finset.card_insert_of_not_mem h0T,
      List.toFinset_card_of_nodup hndp, hlenp]
    omega
  have hinjT : Set.InjOn (Nat.cast : ℕ → F) ↑(insert 0 part.toFinset) := by
    intro a ha b hb hab
    rw [Finset.coe_insert, Set.mem_insert_iff] at ha hb
    have hA : a ≤ n := by
      rcases ha with rfl | ha'
      · omega
      · exact (hboundsp a (List.mem_toFinset.mp (Finset.mem_coe.mp ha'))).2
    have hB : b ≤ n := by
      rcases hb with rfl | hb'
      · omega
      · exact (hboundsp b (List.mem_toFinset.mp (Finset.mem_coe.mp hb'))).2
    exact hinj a (List.mem_range.mpr (by omega)) b
      (List.mem_range.mpr (by omega)) hab
  set g := Lagrange.interpolate (insert 0 part.toFinset) (Nat.cast : ℕ → F)
    (fun i => if i = 0 then s' else Polynomial.eval (i : F) fI) with hgdef
  have hdegg : g.degree < (k : WithBot ℕ) := by
    have hd := Lagrange.degree_interpolate_lt
      (fun (i : Nat) => if i = 0 then s' else Polynomial.eval (i : F) fI) hinjT
    rw [hcardT] at hd
    exact hd
  have hg0 : Polynomial.eval ((0 : ℕ) : F) g = s' := by
    rw [hgdef, Lagrange.eval_interpolate_at_node _ hinjT
      (Finset.mem_insert_self 0 _)]
    simp
  have hgpart : ∀ i ∈ part,
      Polynomial.eval (i : F) g = Polynomial.eval (i : F) fI := by
    intro i hi
    rw [hgdef, Lagrange.eval_interpolate_at_node _ hinjT
      (Finset.mem_insert.mpr (Or.inr (List.mem_toFinset.mpr hi)))]
    have hne : i ≠ 0 := by
      have := hboundsp i hi
      omega
    simp [hne]
  set rnd := (List.range (k - 1)).map
    (fun j => Polynomial.eval ((j + 1 : ℕ) : F) g) with hrnd
  have hrndlen : rnd.length = k - 1 := by simp [hrnd]
  have hrndval : ∀ j, j < k - 1 →
      rnd.getD j 0 = Polynomial.eval ((j + 1 : ℕ) : F) g := by
    intro j hj
    rw [hrnd]
    rw [List.getD_eq_getElem _ _ (by simp; omega), List.getElem_map]
    have hjlt : j < (List.range (k - 1)).length := by
      simp
      omega
    have hjj : (List.range (k - 1))[j] = j := by simp
    rw [hjj]
  obtain ⟨shares', hgen', hlen', hx'⟩ :=
    generate_keyshares_eval s' rnd k n hk hkn hrndlen hinj
  refine ⟨rnd, shares', hrndlen, hgen', ?_⟩
  have htake : rnd.take (k - 1) = rnd := by
    rw [← hrndlen]
    exact List.take_length rnd
  have hcps2 : (s' :: rnd.take (k - 1)).length = k := by
    rw [htake]
    simp [hrndlen]
    omega
  have hinj2 : Set.InjOn (Nat.cast : ℕ → F)
      ↑(Finset.range (s' :: rnd.take (k - 1)).length) := by
    intro a ha b hb hab
    rw [Finset.coe_range, Set.mem_Iio, hcps2] at ha hb
    exact hinj a (List.mem_range.mpr (by omega)) b
      (List.mem_range.mpr (by omega)) hab
  have hval2 : ∀ i ∈ Finset.range (s' :: rnd.take (k - 1)).length,
      Polynomial.eval ((i : ℕ) : F) g = (s' :: rnd.take (k - 1)).getD i 0 := by
    intro i hi
    rw [Finset.mem_range, hcps2] at hi
    cases i with
    | zero => simpa using hg0
    | succ j =>
      rw [htake, show (s' :: rnd).getD (j + 1) 0 = rnd.getD j 0 from rfl,
        hrndval j (by omega)]
  have hgeq : g = Lagrange.interpolate
      (Finset.range (s' :: rnd.take (k - 1)).length) (Nat.cast : ℕ → F)
      (fun i => (s' :: rnd.take (k - 1)).getD i 0) := by
    refine Lagrange.eq_interpolate_of_eval_eq _ hinj2 ?_ hval2
    rw [Finset.card_range]
    exact lt_of_lt_of_eq hdegg (by exact_mod_cast hcps2.symm)
  intro i hi
  rw [hx' i (hboundsp i hi).1 (hboundsp i hi).2, ← hgeq]
  exact hgpart i hi

/-- C8: `generate_keyshares(secret, k, n)` returns `UnreachableQuorumError`
iff n < k; for n ≥ k it returns n shares that are the values at x = 1..n of a
polynomial of degree < k with constant term the secret, so any k shares
reconstruct the secret by Lagrange interpolation at 0 (with the spec's
λ-coefficients) while any k−1 shares are consistent with every possible
secret and hence do not determine it. -/
theorem generate_keyshares_spec {F : Type} [Field F] [DecidableEq F]
    (secret : F) (randoms : List F) (k n : Nat) (hk : 0 < k) (hn : 0 < n)
    (hrand : randoms.length = k - 1)
    (hinj : ∀ a ∈ List.range (n + 1), ∀ b ∈ List.range (n + 1),
      (a : F) = (b : F) → a = b) :
    (generate_keyshares secret randoms k n = .error ⟨k, n⟩ ↔ n < k) ∧
    (k ≤ n → ∃ shares : List F,
      generate_keyshares secret randoms k n = .ok shares ∧
      shares.length = n ∧
      ∃ f : Polynomial F, f.degree < k ∧ Polynomial.eval 0 f = secret ∧
        (∀ x : Nat, 1 ≤ x → x ≤ n →
          shares.getD (x - 1) 0 = Polynomial.eval (x : F) f) ∧
        (∀ quorum : List Nat, quorum.Nodup → quorum.length = k →
          (∀ i ∈ quorum, 1 ≤ i ∧ i ≤ n) →
          (quorum.map fun i => langrange_coefficient_for_id quorum i *
            shares.getD (i - 1) 0).sum = secret) ∧
        (∀ part : List Nat, part.Nodup → part.length = k - 1 →
          (∀ i ∈ part, 1 ≤ i ∧ i ≤ n) →
          ∀ s' : F, ∃ randoms' shares' : List F, randoms'.length = k - 1 ∧
            generate_keyshares s' randoms' k n = .ok shares' ∧
            ∀ i ∈ part, shares'.getD (i - 1) 0 = shares.getD (i - 1) 0)) := by
  have hcps : (secret :: randoms.take (k - 1)).length = k := by
    simp [List.length_take, hrand]
    omega
  constructor
  · constructor
    · intro herr
      by_contra hnk
      push_neg at hnk
      unfold generate_keyshares at herr
      rw [if_neg (not_lt.mpr hnk)] at herr
      exact absurd herr (by simp)
    · intro hlt
      unfold generate_keyshares
      rw [if_pos hlt]
  · intro hkn
    have hinj' : Set.InjOn (Nat.cast : ℕ → F)
        ↑(Finset.range (secret :: randoms.take (k - 1)).length) := by
      intro a ha b hb hab
      rw [Finset.coe_range, Set.mem_Iio, hcps] at ha hb
      exact hinj a (List.mem_range.mpr (by omega)) b
        (List.mem_range.mpr (by omega)) hab
    obtain ⟨shares, hgen, hlen, hx⟩ :=
      generate_keyshares_eval secret randoms k n hk hkn hrand hinj
    have heval0 : Polynomial.eval (0 : F)
        (Lagrange.interpolate
          (Finset.range (secret :: randoms.take (k - 1)).length)
          (Nat.cast : ℕ → F)
          (fun i => (secret :: randoms.take (k - 1)).getD i 0)) = secret := by
      have h0 := Lagrange.eval_interpolate_at_node
        (fun i => (secret :: randoms.take (k - 1)).getD i 0) hinj'
        (Finset.mem_range.mpr (show 0 < (secret :: randoms.take (k - 1)).length
          from by rw [hcps]; omega))
      simpa using h0
    refine ⟨shares, hgen, hlen,
      Lagrange.interpolate
        (Finset.range (secret :: randoms.take (k - 1)).length)
        (Nat.cast : ℕ → F)
        (fun i => (secret :: randoms.take (k - 1)).getD i 0),
      ?_, heval0, hx, ?_, ?_⟩
    · have hd := Lagrange.degree_interpolate_lt
        (fun i => (secret :: randoms.take (k - 1)).getD i 0) hinj'
      rw [Finset.card_range] at hd
      exact lt_of_lt_of_eq hd (by exact_mod_cast hcps)
    · intro quorum hnd hlenq hbounds
      have hinjq : Set.InjOn (Nat.cast : ℕ → F) ↑quorum.toFinset := by
        intro a ha b hb hab
        rw [List.coe_toFinset, Set.mem_setOf_eq] at ha hb
        exact hinj a (List.mem_range.mpr (by have := hbounds a ha; omega)) b
          (List.mem_range.mpr (by have := hbounds b hb; omega)) hab
      have hdegq : (Lagrange.interpolate
          (Finset.range (secret :: randoms.take (k - 1)).length)
          (Nat.cast : ℕ → F)
          (fun i => (secret :: randoms.take (k - 1)).getD i 0)).degree
          < quorum.length := by
        have hd := Lagrange.degree_interpolate_lt
          (fun i => (secret :: randoms.take (k - 1)).getD i 0) hinj'
        rw [Finset.card_range] at hd
        rw [hlenq]
        exact lt_of_lt_of_eq hd (by exact_mod_cast hcps)
      have hmapq : (quorum.map fun i => langrange_coefficient_for_id quorum i *
          shares.getD (i - 1) 0)
          = quorum.map fun i => langrange_coefficient_for_id quorum i *
            Polynomial.eval (i : F)
              (Lagrange.interpolate
                (Finset.range (secret :: randoms.take (k - 1)).length)
                (Nat.cast : ℕ → F)
                (fun i => (secret :: randoms.take (k - 1)).getD i 0)) :=
        List.map_congr_left fun i hi => by
          rw [hx i (hbounds i hi).1 (hbounds i hi).2]
      rw [hmapq, sum_lagrange_coeff_eval quorum hnd hinjq _ hdegq]
      exact heval0
    · intro part hndp hlenp hboundsp s'
      obtain ⟨randoms', shares', hrl, hgen', hagree⟩ :=
        generate_keyshares_alternative secret randoms k n hk hkn hinj
          part hndp hlenp hboundsp s'
      refine ⟨randoms', shares', hrl, hgen', ?_⟩
      intro i hi
      rw [hagree i hi, ← hx i (hboundsp i hi).1 (hboundsp i hi).2]

/-- Witness for C8: concrete instance over ℤ/3 with secret 1, randomness
[1], threshold 2 and 2 keyholders. -/
theorem generate_keyshares_spec_witness :
    (generate_keyshares (1 : ZMod 3) [1] 2 2 = .error ⟨2, 2⟩ ↔ 2 < 2) ∧
    (∃ shares : List (ZMod 3),
      generate_keyshares (1 : ZMod 3) [1] 2 2 = .ok shares ∧
      shares.length = 2 ∧
      ∃ f : Polynomial (ZMod 3), f.degree < 2 ∧ Polynomial.eval 0 f = 1 ∧
        (∀ x : Nat, 1 ≤ x → x ≤ 2 →
          shares.getD (x - 1) 0 = Polynomial.eval (x : ZMod 3) f) ∧
        (∀ quorum : List Nat, quorum.Nodup → quorum.length = 2 →
          (∀ i ∈ quorum, 1 ≤ i ∧ i ≤ 2) →
          (quorum.map fun i => langrange_coefficient_for_id quorum i *
            shares.getD (i - 1) 0).sum = 1) ∧
        (∀ part : List Nat, part.Nodup → part.length = 2 - 1 →
          (∀ i ∈ part, 1 ≤ i ∧ i ≤ 2) →
          ∀ s' : ZMod 3, ∃ randoms' shares' : List (ZMod 3),
            randoms'.length = 2 - 1 ∧
            generate_keyshares s' randoms' 2 2 = .ok shares' ∧
            ∀ i ∈ part, shares'.getD (i - 1) 0 = shares.getD (i - 1) 0)) :=
  ⟨(generate_keyshares_spec 1 [1] 2 2 (by decide) (by decide) (by decide)
      (by decide)).1,
    (generate_keyshares_spec 1 [1] 2 2 (by decide) (by decide) (by decide)
      (by decide)).2 (by decide)⟩

/-- C1: for shares from `generate_keyshares`, a quorum of size k ≥ 2 whose
keyservers each answer the blinded query `r·H(m)` with
`apply_query_and_lagrange_coefficient`, and a `QueryState` holding exactly
those k responses, `calculate_hash_value` returns `r⁻¹` times the sum of the
parts, which equals the single-key hash `H(m)^secret`. -/
theorem apply_and_reconstruct_single_key {F : Type} [Field F] [DecidableEq F]
    (hashPointFromBytes : List Byte → F) (m : List Byte)
    (secret : F) (randoms : List F) (k n : Nat) (hk : 2 ≤ k) (hkn : k ≤ n)
    (hrand : randoms.length = k - 1)
    (hinj : ∀ a ∈ List.range (n + 1), ∀ b ∈ List.range (n + 1),
      (a : F) = (b : F) → a = b)
    (shares : List F)
    (hsh : generate_keyshares secret randoms k n = .ok shares)
    (quorum : List Nat) (hnd : quorum.Nodup) (hlenq : quorum.length = k)
    (hbounds : ∀ i ∈ quorum, 1 ≤ i ∧ i ≤ n)
    (r v : F) (hr : r ≠ 0) :
    QueryState.calculate_hash_value
      { required_keyholders := k, blinding_factor := r,
        verification_factor := v, query := hashPointFromBytes m * r,
        responses := quorum.map fun i => (i,
          KeyShare.apply_query_and_lagrange_coefficient (shares.getD (i - 1) 0)
            (hashPointFromBytes m * r)
            (langrange_coefficient_for_id quorum i)) }
      = some (r⁻¹ * ((quorum.map fun i =>
          KeyShare.apply_query_and_lagrange_coefficient (shares.getD (i - 1) 0)
            (hashPointFromBytes m * r)
            (langrange_coefficient_for_id quorum i)).sum)) ∧
    r⁻¹ * ((quorum.map fun i =>
        KeyShare.apply_query_and_lagrange_coefficient (shares.getD (i - 1) 0)
          (hashPointFromBytes m * r)
          (langrange_coefficient_for_id quorum i)).sum)
      = secret * hashPointFromBytes m := by
  have hcps : (secret :: randoms.take (k - 1)).length = k := by
    simp [List.length_take, hrand]
    omega
  have hinj' : Set.InjOn (Nat.cast : ℕ → F)
      ↑(Finset.range (secret :: randoms.take (k - 1)).length) := by
    intro a ha b hb hab
    rw [Finset.coe_range, Set.mem_Iio, hcps] at ha hb
    exact hinj a (List.mem_range.mpr (by omega)) b
      (List.mem_range.mpr (by omega)) hab
  obtain ⟨shares₀, hgen, hlen₀, hx⟩ :=
    generate_keyshares_eval secret randoms k n (by omega) hkn hrand hinj
  have hseq : shares₀ = shares := Except.ok.inj (hgen.symm.trans hsh)
  subst hseq
  constructor
  · have hhas : QueryState.has_hash
        { required_keyholders := k, blinding_factor := r,
          verification_factor := v, query := hashPointFromBytes m * r,
          responses := quorum.map fun i => (i,
            KeyShare.apply_query_and_lagrange_coefficient
              (shares₀.getD (i - 1) 0) (hashPointFromBytes m * r)
              (langrange_coefficient_for_id quorum i)) } = true := by
      simp [QueryState.has_hash, hlenq]
    simp only [QueryState.calculate_hash_value, hhas, if_true, List.map_map]
    rfl
  · have heval0 : Polynomial.eval (0 : F)
        (Lagrange.interpolate
          (Finset.range (secret :: randoms.take (k - 1)).length)
          (Nat.cast : ℕ → F)
          (fun i => (secret :: randoms.take (k - 1)).getD i 0)) = secret := by
      have h0 := Lagrange.eval_interpolate_at_node
        (fun i => (secret :: randoms.take (k - 1)).getD i 0) hinj'
        (Finset.mem_range.mpr (show 0 < (secret :: randoms.take (k - 1)).length
          from by rw [hcps]; omega))
      simpa using h0
    have hinjq : Set.InjOn (Nat.cast : ℕ → F) ↑quorum.toFinset := by
      intro a ha b hb hab
      rw [List.coe_toFinset, Set.mem_setOf_eq] at ha hb
      exact hinj a (List.mem_range.mpr (by have := hbounds a ha; omega)) b
        (List.mem_range.mpr (by have := hbounds b hb; omega)) hab
    have hdegq : (Lagrange.interpolate
        (Finset.range (secret :: randoms.take (k - 1)).length)
        (Nat.cast : ℕ → F)
        (fun i => (secret :: randoms.take (k - 1)).getD i 0)).degree
        < quorum.length := by
      have hd := Lagrange.degree_interpolate_lt
        (fun i => (secret :: randoms.take (k - 1)).getD i 0) hinj'
      rw [Finset.card_range] at hd
      rw [hlenq]
      exact lt_of_lt_of_eq hd (by exact_mod_cast hcps)
    have hmapq : (quorum.map fun i =>
        KeyShare.apply_query_and_lagrange_coefficient (shares₀.getD (i - 1) 0)
          (hashPointFromBytes m * r)
          (langrange_coefficient_for_id quorum i))
        = quorum.map fun i =>
          (langrange_coefficient_for_id quorum i *
            Polynomial.eval (i : F)
              (Lagrange.interpolate
                (Finset.range (secret :: randoms.take (k - 1)).length)
                (Nat.cast : ℕ → F)
                (fun i => (secret :: randoms.take (k - 1)).getD i 0)))
            * (hashPointFromBytes m * r) :=
      List.map_congr_left fun i hi => by
        simp only [KeyShare.apply_query_and_lagrange_coefficient,
          hx i (hbounds i hi).1 (hbounds i hi).2]
    rw [hmapq, list_sum_map_mul_right, sum_lagrange_coeff_eval quorum hnd
      hinjq _ hdegq, heval0]
    calc r⁻¹ * (secret * (hashPointFromBytes m * r))
        = secret * hashPointFromBytes m * (r⁻¹ * r) := by ring
      _ = secret * hashPointFromBytes m := by rw [inv_mul_cancel₀ hr, mul_one]

/-- Witness for C1: secret 1, k = n = 2, quorum [1, 2], r = v = 1, over ℤ/3
with the constant hash function. -/
theorem apply_and_reconstruct_single_key_witness :
    QueryState.calculate_hash_value
      { required_keyholders := 2, blinding_factor := (1 : ZMod 3),
        verification_factor := 1, query := 1 * 1,
        responses := [1, 2].map fun i => (i,
          KeyShare.apply_query_and_lagrange_coefficient
            (([1, 1] : List (ZMod 3)).getD (i - 1) 0) (1 * 1)
            (langrange_coefficient_for_id [1, 2] i)) }
      = some ((1 : ZMod 3)⁻¹ * (([1, 2].map fun i =>
          KeyShare.apply_query_and_lagrange_coefficient
            (([1, 1] : List (ZMod 3)).getD (i - 1) 0) (1 * 1)
            (langrange_coefficient_for_id [1, 2] i)).sum)) ∧
    (1 : ZMod 3)⁻¹ * (([1, 2].map fun i =>
        KeyShare.apply_query_and_lagrange_coefficient
          (([1, 1] : List (ZMod 3)).getD (i - 1) 0) (1 * 1)
          (langrange_coefficient_for_id [1, 2] i)).sum)
      = 1 * 1 := by
  have hinv2 : (2 : ZMod 3)⁻¹ = 2 := inv_eq_of_mul_eq_one_right (by decide)
  have heval : evaluate_lagrange_polynomial [(1 : ZMod 3), 1]
      ((2 : Nat) : ZMod 3) = 1 := by
    unfold evaluate_lagrange_polynomial
    rw [show Finset.range ([(1 : ZMod 3), 1].length) = {0, 1} from by decide]
    rw [Finset.sum_insert (by decide), Finset.sum_singleton]
    rw [show ({0, 1} : Finset ℕ).erase 0 = {1} from by decide,
      show ({0, 1} : Finset ℕ).erase 1 = {0} from by decide,
      Finset.prod_singleton, Finset.prod_singleton]
    rw [show ([(1 : ZMod 3), 1].getD 0 0) = 1 from rfl,
      show ([(1 : ZMod 3), 1].getD 1 0) = 1 from rfl]
    rw [show (((2 : Nat) : ZMod 3) - ((1 : Nat) : ZMod 3)) = 1 from by decide,
      show (((0 : Nat) : ZMod 3) - ((1 : Nat) : ZMod 3)) = 2 from by decide,
      show (((2 : Nat) : ZMod 3) - ((0 : Nat) : ZMod 3)) = 2 from by decide,
      show (((1 : Nat) : ZMod 3) - ((0 : Nat) : ZMod 3)) = 1 from by decide]
    rw [div_one, div_eq_mul_inv, hinv2]
    decide
  have hsh : generate_keyshares (1 : ZMod 3) [1] 2 2
      = .ok [1, evaluate_lagrange_polynomial [(1 : ZMod 3), 1]
          ((2 : Nat) : ZMod 3)] := rfl
  have hsh2 : generate_keyshares (1 : ZMod 3) [1] 2 2 = .ok [1, 1] := by
    rw [hsh, heval]
  exact apply_and_reconstruct_single_key (fun _ => (1 : ZMod 3)) [] 1 [1] 2 2
    (by decide) (by decide) (by decide) (by decide) [1, 1] hsh2 [1, 2]
    (by decide) (by decide) (by decide) 1 1 (by decide)
